import Mathlib

/-!
Verification development for the deriverse backend's event-sourced position
reconstruction and PnL engine.  The definitions below are a shallow embedding
of the TypeScript services (`sync.service.ts`, `pnl.service.ts`,
`blockchain.service.ts`); JS floating-point numbers are modelled as exact
rationals (the spec accepts an epsilon-threshold numeric model), `Date`
values as natural-number milliseconds since the epoch, and the Prisma store
as an explicit record of position and fill rows.
-/

namespace Deriverse

/-- Raw side of a decoded trade (`'BUY' | 'SELL'`). -/
inductive Side where
  | BUY
  | SELL
deriving DecidableEq, Repr

/-- Side of a persisted position (`'LONG' | 'SHORT'`). -/
inductive PosSide where
  | LONG
  | SHORT
deriving DecidableEq, Repr

/-- Status of a persisted position (`'OPEN' | 'CLOSED'`). -/
inductive PosStatus where
  | OPEN
  | CLOSED
deriving DecidableEq, Repr

/-- Trade product type (`'SPOT' | 'PERP'`). -/
inductive TradeType where
  | SPOT
  | PERP
deriving DecidableEq, Repr

/-- A decoded trade event (`TradeEvent` in `src/types`), as produced by
`BlockchainService.fetchDecodedTrades`.  `timestamp` is the transaction's
block time in milliseconds (`new Date(blockTime * 1000).getTime()`); a
timestamp of `0` models a falsy/absent `blockTime` in the signature listing.
`funding`/`socLoss` model the per-fill `rawData` extras. -/
structure TradeEvent where
  signature : String
  side : Side
  price : ℚ
  size : ℚ
  marketId : Int
  symbol : String
  timestamp : ℕ
  fee : ℚ
  tradeType : TradeType
  funding : ℚ := 0
  socLoss : ℚ := 0
deriving DecidableEq, Repr

/-- A persisted `Fill` row.  `signature` carries a unique index
(`Fill_signature_key`).  The `side` field models the JS object field read by
`pnl.service.ts` (`f.side`); `SyncService` does not write it, hence `none`
for rows it creates. -/
structure Fill where
  signature : String
  positionId : String
  price : ℚ
  size : ℚ
  fee : ℚ
  isEntry : Bool
  timestamp : ℕ
  tradeType : Option TradeType
  side : Option Side
  funding : ℚ
  socLoss : ℚ
deriving DecidableEq, Repr

/-- A persisted `Position` row (journal/AI columns omitted; they are never
read or written by the sync/PnL core). -/
structure Position where
  id : String
  walletAddress : String
  market : String
  side : PosSide
  status : PosStatus
  avgEntryPrice : ℚ
  avgExitPrice : Option ℚ
  totalSize : ℚ
  totalFees : ℚ
  realizedPnl : Option ℚ
  createdAt : ℕ
  updatedAt : ℕ
  closedAt : Option ℕ
deriving DecidableEq, Repr

/-- The abstract store: the `Position` and `Fill` tables. -/
structure Store where
  positions : List Position
  fills : List Fill
deriving DecidableEq, Repr

/-- Summary returned by `SyncService.syncWallet` (`SyncResult`). -/
structure SyncResult where
  success : Bool
  positionsUpdated : ℕ
  fillsProcessed : ℕ
deriving DecidableEq, Repr

/-- `MARKET_MAP` lookup with the `UNKNOWN-{id}` fallback
(`getMarketName` in `src/config/constants.ts`). -/
def getMarketName (id : Int) : String :=
  if id = 0 then "SOL-USDC"
  else if id = 99 then "LETTERA-USDC"
  else if id = 100 then "VELIT-USDC"
  else "UNKNOWN-" ++ toString id

/-- The closure epsilon used by `SyncService` (`Math.abs(netSize) < 1e-6`). -/
def epsilon : ℚ := 1 / 1000000

/-- `Math.abs` on the rational number model (kept executable). -/
def ratAbs (q : ℚ) : ℚ := if q < 0 then -q else q

/-! ### Grouping (`SyncService.groupTradesByPosition`) -/

/-- One value of the grouping map: `{ marketId, side, trades }`. -/
structure TradeGroup where
  marketId : Int
  side : Side
  trades : List TradeEvent
deriving DecidableEq, Repr

/-- String rendering of a raw side, as used inside the grouping key. -/
def sideName : Side → String
  | Side.BUY => "BUY"
  | Side.SELL => "SELL"

/-- The grouping key `${marketKey}-${trade.side}-${dateBucket}` where
`marketKey` is the market id unless it is `-1` (then the symbol) and
`dateBucket = Math.floor(timestamp / 86400000)`. -/
def groupKey (t : TradeEvent) : String :=
  let marketKey := if t.marketId ≠ -1 then toString t.marketId else t.symbol
  let dateBucket := t.timestamp / 86400000
  marketKey ++ "-" ++ sideName t.side ++ "-" ++ toString dateBucket

/-- Insert one trade into the grouping map (a JS `Map`, which preserves
insertion order; modelled as an association list). -/
def insertTrade (groups : List (String × TradeGroup)) (t : TradeEvent) :
    List (String × TradeGroup) :=
  let key := groupKey t
  if groups.any (fun g => g.1 = key) then
    groups.map (fun g =>
      if g.1 = key then (g.1, { g.2 with trades := g.2.trades ++ [t] }) else g)
  else
    groups ++ [(key, ⟨t.marketId, t.side, [t]⟩)]

/-- `groupTradesByPosition`: fold all trades into the grouping map. -/
def groupTradesByPosition (trades : List TradeEvent) : List (String × TradeGroup) :=
  trades.foldl insertTrade []

/-! ### Fill upsert (`prisma.fill.upsert` keyed by the unique `signature`) -/

/-- Upsert a fill into the `Fill` table: if a row with the same signature
exists, only its `fee` is updated (`update: { fee: trade.fee ?? 0 }`);
otherwise the row is inserted. -/
def fillsUpsert (rows : List Fill) (f : Fill) : List Fill :=
  if rows.any (fun g => g.signature = f.signature) then
    rows.map (fun g => if g.signature = f.signature then { g with fee := f.fee } else g)
  else
    rows ++ [f]

/-- The `Fill` row created for a trade of a group
(STEP 2 of `SyncService.syncWallet`). -/
def mkFill (pid : String) (groupSide : Side) (t : TradeEvent) : Fill :=
  { signature := t.signature
    positionId := pid
    price := t.price
    size := t.size
    fee := t.fee
    timestamp := t.timestamp
    isEntry := (groupSide = Side.SELL ∧ t.side = Side.SELL) ∨
               (groupSide = Side.BUY ∧ t.side = Side.BUY)
    tradeType := some t.tradeType
    side := none
    funding := t.funding
    socLoss := t.socLoss }

/-! ### Aggregation (STEP 3 of `SyncService.syncWallet`) -/

/-- Accumulator of the STEP 3 loop over `allFills`. -/
structure FillAgg where
  netSize : ℚ
  entryValue : ℚ
  entrySize : ℚ
  exitValue : ℚ
  exitSize : ℚ
  totalFees : ℚ
  totalFunding : ℚ
  totalSocLoss : ℚ
deriving DecidableEq, Repr

/-- One iteration of the STEP 3 loop. -/
def aggStep (a : FillAgg) (f : Fill) : FillAgg :=
  let a := { a with totalFees := a.totalFees + f.fee
                    totalFunding := a.totalFunding + f.funding
                    totalSocLoss := a.totalSocLoss + f.socLoss }
  if f.isEntry then
    { a with netSize := a.netSize + f.size
             entryValue := a.entryValue + f.price * f.size
             entrySize := a.entrySize + f.size }
  else
    { a with netSize := a.netSize - f.size
             exitValue := a.exitValue + f.price * f.size
             exitSize := a.exitSize + f.size }

/-- The whole STEP 3 loop. -/
def aggregateFills (fills : List Fill) : FillAgg :=
  fills.foldl aggStep ⟨0, 0, 0, 0, 0, 0, 0, 0⟩

/-- `const isClosed = Math.abs(netSize) < 1e-6`. -/
def FillAgg.isClosed (a : FillAgg) : Bool := ratAbs a.netSize < epsilon

/-- `entrySize > 0 ? entryValue / entrySize : 0`. -/
def FillAgg.avgEntryPrice (a : FillAgg) : ℚ :=
  if 0 < a.entrySize then a.entryValue / a.entrySize else 0

/-- `exitSize > 0 ? exitValue / exitSize : null`. -/
def FillAgg.avgExitPrice (a : FillAgg) : Option ℚ :=
  if 0 < a.exitSize then some (a.exitValue / a.exitSize) else none

/-- `data.side === 'BUY' ? 1 : -1`. -/
def pnlMultiplier (groupSide : Side) : ℚ :=
  if groupSide = Side.BUY then 1 else -1

/-- `pricePnl = exitSize > 0 ? ((exitValue / exitSize) - avgEntryPrice) * exitSize * pnlMultiplier : 0`. -/
def FillAgg.pricePnl (a : FillAgg) (groupSide : Side) : ℚ :=
  if 0 < a.exitSize then
    (a.exitValue / a.exitSize - a.avgEntryPrice) * a.exitSize * pnlMultiplier groupSide
  else 0

/-- `trueRealizedPnl = pricePnl + totalFunding - totalSocLoss`. -/
def FillAgg.trueRealizedPnl (a : FillAgg) (groupSide : Side) : ℚ :=
  a.pricePnl groupSide + a.totalFunding - a.totalSocLoss

/-! ### Sorting fills by timestamp (`orderBy: { timestamp: 'asc' }`) -/

/-- Ordered insertion by timestamp (stable for ties). -/
def insertByTs (f : Fill) : List Fill → List Fill
  | [] => [f]
  | g :: gs => if f.timestamp ≤ g.timestamp then f :: g :: gs else g :: insertByTs f gs

/-- Insertion sort by ascending timestamp, modelling the database's
`orderBy: { timestamp: 'asc' }` result order. -/
def sortFills : List Fill → List Fill
  | [] => []
  | f :: fs => insertByTs f (sortFills fs)

/-- `allFills[allFills.length - 1].timestamp` of the sorted list
(`new Date()` placeholder `0` when there are no fills). -/
def lastFillTimestamp (sorted : List Fill) : ℕ :=
  match sorted.getLast? with
  | some f => f.timestamp
  | none => 0

/-! ### Position rows and the per-group update -/

/-- `Math.min`-reduce of the group's trade timestamps with
`trades[0].timestamp` as initial value (the timestamp-integrity fix);
`new Date()` modelled as `0` for the unreachable empty case. -/
def firstTradeTimestamp : List TradeEvent → ℕ
  | [] => 0
  | t :: ts =>
      (t :: ts).foldl (fun m u => if u.timestamp < m then u.timestamp else m) t.timestamp

/-- The row created by the STEP 1 position upsert (fields defaulted by the
schema are given their column defaults). -/
def newPosition (pid wallet : String) (g : TradeGroup) (createdAt : ℕ) : Position :=
  { id := pid
    walletAddress := wallet
    market := getMarketName g.marketId
    side := if g.side = Side.BUY then PosSide.LONG else PosSide.SHORT
    status := PosStatus.OPEN
    avgEntryPrice := 0
    avgExitPrice := none
    totalSize := 0
    totalFees := 0
    realizedPnl := none
    createdAt := createdAt
    updatedAt := createdAt
    closedAt := none }

/-- The final `prisma.position.update` of a grouping-key pass: derived
fields recomputed from the complete fill set (the JSON `metadata` column is
display-only and not modelled; it carries no derived state read back by the
core). -/
def applyAggregate (groupSide : Side) (agg : FillAgg) (lastTs : ℕ) (p : Position) :
    Position :=
  let isClosed := agg.isClosed
  { p with
    totalSize := if isClosed then 0 else ratAbs agg.netSize
    avgEntryPrice := agg.avgEntryPrice
    totalFees := agg.totalFees
    realizedPnl := some (agg.trueRealizedPnl groupSide)
    updatedAt := lastTs
    status := if isClosed then PosStatus.CLOSED else PosStatus.OPEN
    closedAt := if isClosed then some lastTs else p.closedAt
    avgExitPrice := if isClosed then agg.avgExitPrice else p.avgExitPrice }

/-- `prisma.position.findFirst`-style lookup by primary key. -/
def findPosition (s : Store) (pid : String) : Option Position :=
  s.positions.find? (fun p => p.id = pid)

/-- In-place row update keyed by position id
(`prisma.position.update({ where: { id } })`). -/
def updatePosition (s : Store) (pid : String) (upd : Position → Position) : Store :=
  { s with positions := s.positions.map (fun p => if p.id = pid then upd p else p) }

/-- `` `${posId}-${walletAddress}` ``: the deterministic composite row id. -/
def dbPositionId (key wallet : String) : String := key ++ "-" ++ wallet

/-- STEP 1 of a grouping-key pass: the parent-position upsert
(`prisma.position.upsert` with an empty `update`), which creates the row
only when absent. -/
def ensurePosition (s : Store) (pid wallet : String) (g : TradeGroup)
    (createdAt : ℕ) : Store :=
  match findPosition s pid with
  | some _ => s
  | none => { s with positions := s.positions ++ [newPosition pid wallet g createdAt] }

/-- The `Fill` rows a grouping-key pass upserts, in processing order. -/
def groupFills (wallet : String) (kg : String × TradeGroup) : List Fill :=
  kg.2.trades.map (mkFill (dbPositionId kg.1 wallet) kg.2.side)

/-- The pass that a grouping-key sync applies to the position row once the
key's complete fill set is known: STEP 3 aggregation over the
timestamp-ordered fills followed by the final position update. -/
def recomputePosition (groupSide : Side) (fills : List Fill) (p : Position) : Position :=
  applyAggregate groupSide (aggregateFills (sortFills fills))
    (lastFillTimestamp (sortFills fills)) p

/-- One grouping-key pass of `SyncService.syncWallet` (STEP 1 parent upsert,
STEP 2 fill upserts with the `fillsProcessed` counter, STEP 3 recomputation
from the complete fill set and write-back).  The `wasClosed` flag only gates
the fire-and-forget journal notification, which has no store effect. -/
def processGroup (wallet : String) (acc : Store × ℕ) (kg : String × TradeGroup) :
    Store × ℕ :=
  let pid := dbPositionId kg.1 wallet
  let s1 := ensurePosition acc.1 pid wallet kg.2 (firstTradeTimestamp kg.2.trades)
  let s2 : Store := { s1 with fills := (groupFills wallet kg).foldl fillsUpsert s1.fills }
  let s3 := updatePosition s2 pid
    (recomputePosition kg.2.side (s2.fills.filter (fun f => f.positionId = pid)))
  (s3, acc.2 + kg.2.trades.length)

/-! ### The incremental watermark and `syncWallet` -/

/-- Fills belonging to the wallet: `where: { position: { walletAddress } }`. -/
def walletFills (s : Store) (wallet : String) : List Fill :=
  s.fills.filter (fun f =>
    match findPosition s f.positionId with
    | some p => p.walletAddress = wallet
    | none => false)

/-- `findFirst({ orderBy: { timestamp: 'desc' } })`: the greatest stored
fill timestamp for the wallet, if any fill exists. -/
def maxWalletFillTs (s : Store) (wallet : String) : Option ℕ :=
  match walletFills s wallet with
  | [] => none
  | f :: fs => some (fs.foldl (fun m g => max m g.timestamp) f.timestamp)

/-- The signature filter of `BlockchainService.fetchDecodedTrades`:
`if (!since || !s.blockTime) return true; return blockTime * 1000 > since`.
A trade's timestamp is its transaction's `blockTime * 1000`, so the
per-signature filter is the per-trade filter below (`timestamp = 0` models
a falsy `blockTime`). -/
def keepTrade (since : Option ℕ) (t : TradeEvent) : Bool :=
  match since with
  | none => true
  | some s => t.timestamp = 0 ∨ s < t.timestamp

/-- `SyncService.syncWallet`, with the upstream chain modelled as the list
of trades the blockchain service would decode from the full (unfiltered)
signature history.  Returns the new store and the `SyncResult`. -/
def syncWallet (wallet : String) (upstream : List TradeEvent) (store : Store) :
    Store × SyncResult :=
  let since := maxWalletFillTs store wallet
  let trades := upstream.filter (keepTrade since)
  if trades.isEmpty then (store, ⟨true, 0, 0⟩)
  else
    let groups := groupTradesByPosition trades
    let r := groups.foldl (processGroup wallet) (store, 0)
    (r.1, ⟨true, groups.length, r.2⟩)

/-! ### PnlService (`pnl.service.ts`) -/

/-- `COINGECKO_ID_MAP` lookup (only `SOL-USDC` is mapped). -/
def coingeckoId (marketName : String) : Option String :=
  if marketName = "SOL-USDC" then some "solana" else none

/-- The short-lived price cache (`this.priceCache`). -/
structure PriceCache where
  timestamp : ℕ
  prices : List (String × ℚ)
deriving DecidableEq, Repr

/-- `CACHE_TTL_MS`. -/
def cacheTtlMs : ℕ := 60000

/-- Outcome of the (retried) CoinGecko fetch: a parsed JSON body mapping
CoinGecko ids to USD prices, a final non-ok HTTP response, or a thrown
error (network failure). -/
inductive FetchOutcome where
  | ok (byId : List (String × ℚ))
  | nonOk
  | threw
deriving DecidableEq, Repr

/-- Association-list lookup for string-keyed records. -/
def lookupStr (m : List (String × ℚ)) (k : String) : Option ℚ :=
  (m.find? (fun e => e.1 = k)).map (fun e => e.2)

/-- Deduplicate preserving first occurrence (`[...new Set(marketNames)]`). -/
def dedupNames : List String → List String
  | [] => []
  | n :: ns => n :: (dedupNames ns).filter (fun m => m ≠ n)

/-- The price map built from a successful JSON body
(`uniqueNames.forEach(...)`, keeping names whose CoinGecko id appears). -/
def pricesFromJson (uniqueNames : List String) (byId : List (String × ℚ)) :
    List (String × ℚ) :=
  uniqueNames.filterMap (fun name =>
    (coingeckoId name).bind (fun cg => (lookupStr byId cg).map (fun p => (name, p))))

/-- The body of `PnlService.getMultiplePrices` past the fresh-cache
short-circuit: an empty CoinGecko id list returns no prices; a non-ok
response returns no prices (`return {}`); only a thrown error falls back to
the previously cached prices. -/
def fetchMultiplePrices (cache : Option PriceCache) (now : ℕ)
    (marketNames : List String) (outcome : FetchOutcome) :
    List (String × ℚ) × Option PriceCache :=
  let uniqueNames := dedupNames marketNames
  let cgIds := uniqueNames.filterMap coingeckoId
  if cgIds.isEmpty then ([], cache)
  else
    match outcome with
    | FetchOutcome.ok byId =>
        let prices := pricesFromJson uniqueNames byId
        (prices, some ⟨now, prices⟩)
    | FetchOutcome.nonOk => ([], cache)
    | FetchOutcome.threw =>
        match cache with
        | some c => (c.prices, cache)
        | none => ([], cache)

/-- `PnlService.getMultiplePrices`: returns the price map and the new cache
state.  A fresh cache (`now - timestamp < CACHE_TTL_MS`) short-circuits to
the cached prices. -/
def getMultiplePrices (cache : Option PriceCache) (now : ℕ)
    (marketNames : List String) (outcome : FetchOutcome) :
    List (String × ℚ) × Option PriceCache :=
  match cache with
  | some c =>
      if now - c.timestamp < cacheTtlMs then (c.prices, some c)
      else fetchMultiplePrices (some c) now marketNames outcome
  | none => fetchMultiplePrices none now marketNames outcome

/-- State of the per-fill replay loop in `getWalletPerformance`
(`currentInventory`, `avgCostBasis`, `realized`, `totalFees`). -/
structure ReplayState where
  inv : ℚ
  basis : ℚ
  realized : ℚ
  fees : ℚ
deriving DecidableEq, Repr

/-- One iteration of the replay loop: fee accumulation, the seed reset
(`currentInventory === 0 && !f.isEntry`), then the spot branch keyed on the
raw `f.side` or the perp branch keyed on `f.isEntry`. -/
def replayStep (isSpot : Bool) (posSide : PosSide) (s : ReplayState) (f : Fill) :
    ReplayState :=
  let s := { s with fees := s.fees + f.fee }
  let s := if s.inv = 0 ∧ f.isEntry = false then { s with basis := f.price } else s
  if isSpot then
    if f.side = some Side.BUY then
      let totalCost := s.inv * s.basis + f.price * f.size
      { s with inv := s.inv + f.size, basis := totalCost / (s.inv + f.size) }
    else
      { s with realized := s.realized + (f.price - s.basis) * f.size
               inv := s.inv - f.size }
  else
    let pnlDirection : ℚ := if posSide = PosSide.LONG then 1 else -1
    if f.isEntry then
      let totalCost := s.inv * s.basis + f.price * f.size
      let inv' := s.inv + f.size
      { s with inv := inv'
               basis := if 0 < inv' then totalCost / inv' else s.basis }
    else
      { s with realized := s.realized + (f.price - s.basis) * f.size * pnlDirection
               inv := s.inv - f.size }

/-- The replay loop over a position's fills, seeded with
`avgCostBasis = Number(data.fills[0].price)` and zero inventory. -/
def replayFills (posSide : PosSide) (isSpot : Bool) (initBasis : ℚ)
    (fills : List Fill) : ReplayState :=
  fills.foldl (replayStep isSpot posSide) ⟨0, initBasis, 0, 0⟩

/-- One row of `getWalletPerformance` output (values before the decimal
display rounding applied at the `performance.push` site). -/
structure PerfRow where
  entry : ℚ
  current : ℚ
  size : ℚ
  unrealized : ℚ
  realized : ℚ
  fees : ℚ
  reported : Bool
deriving DecidableEq, Repr

/-- `data.fills[0].tradeType === 'SPOT'` over the timestamp-ordered fills. -/
def isSpotOf (fills : List Fill) : Bool :=
  ((sortFills fills).head?.bind (fun f => f.tradeType)) = some TradeType.SPOT

/-- `avgCostBasis = Number(data.fills[0].price)`: the replay's seed value
(`0` for the unreachable empty group). -/
def initBasisOf (fills : List Fill) : ℚ :=
  match (sortFills fills).head? with
  | some f => f.price
  | none => 0

/-- The replay state of one position's fills as `getWalletPerformance`
computes it. -/
def replayOf (pos : Position) (fills : List Fill) : ReplayState :=
  replayFills pos.side (isSpotOf fills) (initBasisOf fills) (sortFills fills)

/-- `livePrices[marketName] || avgCostBasis` (a price of `0` is falsy). -/
def currentPriceOf (pos : Position) (fills : List Fill)
    (livePrices : List (String × ℚ)) : ℚ :=
  match lookupStr livePrices pos.market with
  | some p => if p = 0 then (replayOf pos fills).basis else p
  | none => (replayOf pos fills).basis

/-- `pnlFactor = (!isSpot && side === 'SHORT') ? -1 : 1`. -/
def pnlFactorOf (pos : Position) (fills : List Fill) : ℚ :=
  if isSpotOf fills = false ∧ pos.side = PosSide.SHORT then -1 else 1

/-- The per-position body of `getWalletPerformance`: replay the fills
(ordered by ascending timestamp), resolve the current price from the live
price map with the cost-basis fallback, and compute unrealized PnL with
`pnlFactor` and the absolute inventory. -/
def perfForPosition (pos : Position) (fills : List Fill)
    (livePrices : List (String × ℚ)) : PerfRow :=
  let st := replayOf pos fills
  let currentPrice := currentPriceOf pos fills livePrices
  let absInventory := ratAbs st.inv
  let unrealized := (currentPrice - st.basis) * absInventory * pnlFactorOf pos fills
  { entry := st.basis
    current := currentPrice
    size := absInventory
    unrealized := unrealized
    realized := st.realized
    fees := st.fees
    reported := (1 / 1000000000 : ℚ) < absInventory ∨ (1 / 10000 : ℚ) < ratAbs st.realized }

/-! ### BlockchainService market-id resolution (`mapEventsToTrades`) -/

/-- A decoded log message as far as market-id resolution is concerned:
optional id fields, the optional order id, and the raw price. -/
structure RawEvent where
  instrId : Option Int
  marketId : Option Int
  assetId : Option Int
  instrumentIndex : Option Int
  orderId : Option Int
  price : ℚ
deriving DecidableEq, Repr

/-- `Map.set` on an integer-keyed association list (overwrites existing). -/
def setAssoc (m : List (Int × Int)) (k v : Int) : List (Int × Int) :=
  if m.any (fun e => e.1 = k) then
    m.map (fun e => if e.1 = k then (k, v) else e)
  else
    m ++ [(k, v)]

/-- Association-list lookup. -/
def lookupAssoc (m : List (Int × Int)) (k : Int) : Option Int :=
  (m.find? (fun e => e.1 = k)).map (fun e => e.2)

/-- The same-transaction `orderIdToInstrId` correlation map: for every
message carrying both an order id and one of the id fields
(`instrId ?? marketId ?? assetId ?? instrumentIndex`), record the pair. -/
def orderIdToInstrId (events : List RawEvent) : List (Int × Int) :=
  events.foldl (fun m msg =>
    let possibleId := (msg.instrId <|> msg.marketId <|> msg.assetId <|> msg.instrumentIndex)
    match msg.orderId, possibleId with
    | some oid, some pid => setAssoc m oid pid
    | _, _ => m) []

/-- Market-id and decimal-scale resolution for one fill event
(`mapEventsToTrades`, step 4 "PRICE-BASED SCALING & ID ASSIGNMENT"): the
price-band tests come first; only a price outside every band consults
`e.instrId ?? e.marketId ?? orderIdToInstrId.get(Number(e.orderId))`,
defaulting to `-1`. -/
def resolveInstrId (m : List (Int × Int)) (e : RawEvent) : Int × ℚ :=
  if 10000 < e.price then (99, 10000000)
  else if 10 < e.price ∧ e.price < 500 then (0, 1000000000)
  else if (9 / 10 : ℚ) < e.price ∧ e.price < 11 / 10 then (100, 1000000)
  else
    let foundId := e.instrId <|> e.marketId <|>
      (match e.orderId with
       | some oid => lookupAssoc m oid
       | none => none)
    (foundId.getD (-1), 1000000000)

/-! ## Specification-side quantities: sums over the fill set -/

/-- Sum of the entry fills' sizes. -/
def entrySizeSum (l : List Fill) : ℚ :=
  ((l.filter (fun f => f.isEntry)).map Fill.size).sum

/-- Sum of the exit fills' sizes. -/
def exitSizeSum (l : List Fill) : ℚ :=
  ((l.filter (fun f => f.isEntry = false)).map Fill.size).sum

/-- Sum of `price * size` over the entry fills. -/
def entryValueSum (l : List Fill) : ℚ :=
  ((l.filter (fun f => f.isEntry)).map (fun f => f.price * f.size)).sum

/-- Sum of `price * size` over the exit fills. -/
def exitValueSum (l : List Fill) : ℚ :=
  ((l.filter (fun f => f.isEntry = false)).map (fun f => f.price * f.size)).sum

/-- Net size: entry sizes minus exit sizes. -/
def netSizeSpec (l : List Fill) : ℚ := entrySizeSum l - exitSizeSum l

theorem entrySizeSum_cons (f : Fill) (l : List Fill) :
    entrySizeSum (f :: l) = (if f.isEntry then f.size else 0) + entrySizeSum l := by
  by_cases h : f.isEntry <;> simp [entrySizeSum, List.filter_cons, h]

theorem exitSizeSum_cons (f : Fill) (l : List Fill) :
    exitSizeSum (f :: l) = (if f.isEntry then 0 else f.size) + exitSizeSum l := by
  by_cases h : f.isEntry <;> simp [exitSizeSum, List.filter_cons, h]

theorem entryValueSum_cons (f : Fill) (l : List Fill) :
    entryValueSum (f :: l) =
      (if f.isEntry then f.price * f.size else 0) + entryValueSum l := by
  by_cases h : f.isEntry <;> simp [entryValueSum, List.filter_cons, h]

theorem exitValueSum_cons (f : Fill) (l : List Fill) :
    exitValueSum (f :: l) =
      (if f.isEntry then 0 else f.price * f.size) + exitValueSum l := by
  by_cases h : f.isEntry <;> simp [exitValueSum, List.filter_cons, h]

/-! ## The STEP 3 fold computes exactly those sums -/

theorem foldl_aggStep_netSize (l : List Fill) (a : FillAgg) :
    (l.foldl aggStep a).netSize = a.netSize + netSizeSpec l := by
  induction l generalizing a with
  | nil => simp [netSizeSpec, entrySizeSum, exitSizeSum]
  | cons f l ih =>
      rw [List.foldl_cons, ih]
      by_cases h : f.isEntry <;>
        (simp [aggStep, h, netSizeSpec, entrySizeSum_cons, exitSizeSum_cons]; try ring)

theorem foldl_aggStep_entrySize (l : List Fill) (a : FillAgg) :
    (l.foldl aggStep a).entrySize = a.entrySize + entrySizeSum l := by
  induction l generalizing a with
  | nil => simp [entrySizeSum]
  | cons f l ih =>
      rw [List.foldl_cons, ih]
      by_cases h : f.isEntry <;> (simp [aggStep, h, entrySizeSum_cons]; try ring)

theorem foldl_aggStep_exitSize (l : List Fill) (a : FillAgg) :
    (l.foldl aggStep a).exitSize = a.exitSize + exitSizeSum l := by
  induction l generalizing a with
  | nil => simp [exitSizeSum]
  | cons f l ih =>
      rw [List.foldl_cons, ih]
      by_cases h : f.isEntry <;> (simp [aggStep, h, exitSizeSum_cons]; try ring)

theorem foldl_aggStep_entryValue (l : List Fill) (a : FillAgg) :
    (l.foldl aggStep a).entryValue = a.entryValue + entryValueSum l := by
  induction l generalizing a with
  | nil => simp [entryValueSum]
  | cons f l ih =>
      rw [List.foldl_cons, ih]
      by_cases h : f.isEntry <;> (simp [aggStep, h, entryValueSum_cons]; try ring)

theorem foldl_aggStep_exitValue (l : List Fill) (a : FillAgg) :
    (l.foldl aggStep a).exitValue = a.exitValue + exitValueSum l := by
  induction l generalizing a with
  | nil => simp [exitValueSum]
  | cons f l ih =>
      rw [List.foldl_cons, ih]
      by_cases h : f.isEntry <;> (simp [aggStep, h, exitValueSum_cons]; try ring)

theorem aggregateFills_netSize (l : List Fill) :
    (aggregateFills l).netSize = netSizeSpec l := by
  rw [aggregateFills, foldl_aggStep_netSize]
  norm_num

theorem aggregateFills_entrySize (l : List Fill) :
    (aggregateFills l).entrySize = entrySizeSum l := by
  rw [aggregateFills, foldl_aggStep_entrySize]
  norm_num

theorem aggregateFills_exitSize (l : List Fill) :
    (aggregateFills l).exitSize = exitSizeSum l := by
  rw [aggregateFills, foldl_aggStep_exitSize]
  norm_num

theorem aggregateFills_entryValue (l : List Fill) :
    (aggregateFills l).entryValue = entryValueSum l := by
  rw [aggregateFills, foldl_aggStep_entryValue]
  norm_num

theorem aggregateFills_exitValue (l : List Fill) :
    (aggregateFills l).exitValue = exitValueSum l := by
  rw [aggregateFills, foldl_aggStep_exitValue]
  norm_num

/-! ## The sort is a permutation, so the sums are unchanged by it -/

theorem perm_insertByTs (f : Fill) (l : List Fill) :
    List.Perm (insertByTs f l) (f :: l) := by
  induction l with
  | nil => rfl
  | cons g gs ih =>
      rw [insertByTs]
      by_cases h : f.timestamp ≤ g.timestamp
      · simp [h]
      · simp only [h, if_false]
        exact (ih.cons g).trans (List.Perm.swap f g gs)

theorem perm_sortFills (l : List Fill) : List.Perm (sortFills l) l := by
  induction l with
  | nil => rfl
  | cons f fs ih => exact (perm_insertByTs f (sortFills fs)).trans (ih.cons f)

theorem entrySizeSum_sortFills (l : List Fill) :
    entrySizeSum (sortFills l) = entrySizeSum l := by
  unfold entrySizeSum
  exact (((perm_sortFills l).filter (fun f => f.isEntry)).map Fill.size).sum_eq

theorem exitSizeSum_sortFills (l : List Fill) :
    exitSizeSum (sortFills l) = exitSizeSum l := by
  unfold exitSizeSum
  exact (((perm_sortFills l).filter (fun f => f.isEntry = false)).map Fill.size).sum_eq

theorem entryValueSum_sortFills (l : List Fill) :
    entryValueSum (sortFills l) = entryValueSum l := by
  unfold entryValueSum
  exact (((perm_sortFills l).filter (fun f => f.isEntry)).map
    (fun f => f.price * f.size)).sum_eq

theorem exitValueSum_sortFills (l : List Fill) :
    exitValueSum (sortFills l) = exitValueSum l := by
  unfold exitValueSum
  exact (((perm_sortFills l).filter (fun f => f.isEntry = false)).map
    (fun f => f.price * f.size)).sum_eq

theorem netSizeSpec_sortFills (l : List Fill) : netSizeSpec (sortFills l) = netSizeSpec l := by
  rw [netSizeSpec, netSizeSpec, entrySizeSum_sortFills, exitSizeSum_sortFills]

/-! ## The last element of the sorted fill list carries the maximal timestamp -/

/-- The sorted-by-timestamp order. -/
def tsLE (f g : Fill) : Prop := f.timestamp ≤ g.timestamp

theorem mem_insertByTs (x f : Fill) (l : List Fill) :
    x ∈ insertByTs f l ↔ x = f ∨ x ∈ l := by
  rw [(perm_insertByTs f l).mem_iff]
  simp

theorem pairwise_insertByTs (f : Fill) (l : List Fill) (h : l.Pairwise tsLE) :
    (insertByTs f l).Pairwise tsLE := by
  induction l with
  | nil => simp [insertByTs, List.pairwise_cons]
  | cons g gs ih =>
      rw [List.pairwise_cons] at h
      rw [insertByTs]
      by_cases hle : f.timestamp ≤ g.timestamp
      · simp only [hle, if_true]
        rw [List.pairwise_cons]
        refine ⟨?_, List.pairwise_cons.2 h⟩
        intro x hx
        rcases List.mem_cons.mp hx with rfl | hx
        · exact hle
        · exact le_trans hle (h.1 x hx)
      · simp only [hle, if_false]
        rw [List.pairwise_cons]
        refine ⟨?_, ih h.2⟩
        intro x hx
        rcases (mem_insertByTs x f gs).mp hx with rfl | hx
        · exact le_of_lt (lt_of_not_le hle)
        · exact h.1 x hx

theorem pairwise_sortFills (l : List Fill) : (sortFills l).Pairwise tsLE := by
  induction l with
  | nil => exact List.Pairwise.nil
  | cons f fs ih => exact pairwise_insertByTs f (sortFills fs) ih

theorem sorted_getLast?_ge (l : List Fill) (h : l.Pairwise tsLE) :
    ∀ x ∈ l, ∃ y, l.getLast? = some y ∧ x.timestamp ≤ y.timestamp := by
  induction l with
  | nil =>
      intro x hx
      cases hx
  | cons f fs ih =>
      rw [List.pairwise_cons] at h
      intro x hx
      cases fs with
      | nil =>
          rcases List.mem_cons.mp hx with h1 | h1
          · exact ⟨f, rfl, by rw [h1]⟩
          · cases h1
      | cons g gs =>
          rcases List.mem_cons.mp hx with h1 | h1
          · rcases ih h.2 g (List.mem_cons_self g gs) with ⟨y, hy, hle⟩
            refine ⟨y, by rw [List.getLast?_cons_cons]; exact hy, ?_⟩
            rw [h1]
            exact le_trans (h.1 g (List.mem_cons_self g gs)) hle
          · rcases ih h.2 x h1 with ⟨y, hy, hle⟩
            exact ⟨y, by rw [List.getLast?_cons_cons]; exact hy, hle⟩

theorem getLast?_mem_list (l : List Fill) (y : Fill) (hy : l.getLast? = some y) :
    y ∈ l := by
  rcases List.mem_getLast?_eq_getLast (show y ∈ l.getLast? by rw [Option.mem_def]; exact hy)
    with ⟨h1, h2⟩
  rw [h2]
  exact List.getLast_mem h1

theorem lastFillTimestamp_spec (l : List Fill) (hne : l ≠ []) :
    ∃ f ∈ l, lastFillTimestamp (sortFills l) = f.timestamp ∧
      ∀ g ∈ l, g.timestamp ≤ f.timestamp := by
  have hs : sortFills l ≠ [] := by
    intro h0
    apply hne
    have hp := perm_sortFills l
    rw [h0] at hp
    exact hp.symm.eq_nil
  rcases List.exists_mem_of_ne_nil _ hs with ⟨x, hx⟩
  rcases sorted_getLast?_ge _ (pairwise_sortFills l) x hx with ⟨y, hy, _⟩
  refine ⟨y, (perm_sortFills l).mem_iff.mp (getLast?_mem_list _ _ hy), ?_, ?_⟩
  · rw [lastFillTimestamp, hy]
  · intro g hg
    rcases sorted_getLast?_ge _ (pairwise_sortFills l) g
        ((perm_sortFills l).mem_iff.mpr hg) with ⟨y', hy', hle⟩
    rw [hy] at hy'
    cases hy'
    exact hle

/-- `ratAbs` agrees with the absolute value. -/
theorem ratAbs_eq_abs (q : ℚ) : ratAbs q = |q| := by
  rw [ratAbs]
  by_cases h : q < 0
  · rw [if_pos h, abs_of_neg h]
  · rw [if_neg h, abs_of_nonneg (le_of_not_lt h)]

/-! ## Claim C2: closure determination -/

theorem recompute_netSize (fills : List Fill) :
    (aggregateFills (sortFills fills)).netSize = netSizeSpec fills := by
  rw [aggregateFills_netSize, netSizeSpec_sortFills]

theorem recompute_exitSize (fills : List Fill) :
    (aggregateFills (sortFills fills)).exitSize = exitSizeSum fills := by
  rw [aggregateFills_exitSize, exitSizeSum_sortFills]

theorem recompute_exitValue (fills : List Fill) :
    (aggregateFills (sortFills fills)).exitValue = exitValueSum fills := by
  rw [aggregateFills_exitValue, exitValueSum_sortFills]

theorem recompute_entrySize (fills : List Fill) :
    (aggregateFills (sortFills fills)).entrySize = entrySizeSum fills := by
  rw [aggregateFills_entrySize, entrySizeSum_sortFills]

theorem recompute_entryValue (fills : List Fill) :
    (aggregateFills (sortFills fills)).entryValue = entryValueSum fills := by
  rw [aggregateFills_entryValue, entryValueSum_sortFills]

/-- C2: after every sync pass over a grouping key's complete fill set, the
position's status is CLOSED iff `|netSize|` (entry sizes minus exit sizes)
is below epsilon; on closure, `avgExitPrice` is the size-weighted average of
the exit fills and `closedAt` is the timestamp of the chronologically last
fill. -/
theorem closure_determination (groupSide : Side) (fills : List Fill) (p : Position)
    (hne : fills ≠ []) :
    ((recomputePosition groupSide fills p).status = PosStatus.CLOSED ↔
      |netSizeSpec fills| < epsilon)
    ∧ (|netSizeSpec fills| < epsilon → 0 < exitSizeSum fills →
        (recomputePosition groupSide fills p).avgExitPrice =
          some (exitValueSum fills / exitSizeSum fills))
    ∧ (|netSizeSpec fills| < epsilon →
        ∃ f ∈ fills, (recomputePosition groupSide fills p).closedAt = some f.timestamp ∧
          ∀ g ∈ fills, g.timestamp ≤ f.timestamp) := by
  refine ⟨?_, ?_, ?_⟩
  · by_cases hc : |netSizeSpec fills| < epsilon
    · simp [recomputePosition, applyAggregate, FillAgg.isClosed, ratAbs_eq_abs, recompute_netSize, hc]
    · simp [recomputePosition, applyAggregate, FillAgg.isClosed, ratAbs_eq_abs, recompute_netSize, hc]
  · intro hc hpos
    simp [recomputePosition, applyAggregate, FillAgg.isClosed, ratAbs_eq_abs, recompute_netSize,
      hc, FillAgg.avgExitPrice, recompute_exitSize, recompute_exitValue, hpos]
  · intro hc
    rcases lastFillTimestamp_spec fills hne with ⟨f, hf, hts, hmax⟩
    refine ⟨f, hf, ?_, hmax⟩
    simp [recomputePosition, applyAggregate, FillAgg.isClosed, ratAbs_eq_abs, recompute_netSize, hc, hts]

/-- A fill used by concrete C2 checks: entry of 10 at 100. -/
def c2f1 : Fill :=
  { signature := "c2a", positionId := "P", price := 100, size := 10, fee := 0,
    isEntry := true, timestamp := 1, tradeType := some TradeType.PERP, side := none,
    funding := 0, socLoss := 0 }

/-- A fill used by concrete C2 checks: exit of 10 at 120. -/
def c2f2 : Fill :=
  { signature := "c2b", positionId := "P", price := 120, size := 10, fee := 0,
    isEntry := false, timestamp := 2, tradeType := some TradeType.PERP, side := none,
    funding := 0, socLoss := 0 }

/-- A position row used by concrete C2 checks. -/
def c2pos : Position :=
  { id := "P", walletAddress := "W", market := "SOL-USDC", side := PosSide.LONG,
    status := PosStatus.OPEN, avgEntryPrice := 0, avgExitPrice := none,
    totalSize := 0, totalFees := 0, realizedPnl := none, createdAt := 1,
    updatedAt := 1, closedAt := none }

theorem closure_determination_witness :
    ([c2f1, c2f2] ≠ ([] : List Fill))
    ∧ (((recomputePosition Side.BUY [c2f1, c2f2] c2pos).status = PosStatus.CLOSED ↔
        |netSizeSpec [c2f1, c2f2]| < epsilon)
      ∧ (|netSizeSpec [c2f1, c2f2]| < epsilon → 0 < exitSizeSum [c2f1, c2f2] →
          (recomputePosition Side.BUY [c2f1, c2f2] c2pos).avgExitPrice =
            some (exitValueSum [c2f1, c2f2] / exitSizeSum [c2f1, c2f2]))
      ∧ (|netSizeSpec [c2f1, c2f2]| < epsilon →
          ∃ f ∈ [c2f1, c2f2],
            (recomputePosition Side.BUY [c2f1, c2f2] c2pos).closedAt = some f.timestamp ∧
            ∀ g ∈ [c2f1, c2f2], g.timestamp ≤ f.timestamp)) :=
  ⟨by decide, closure_determination Side.BUY [c2f1, c2f2] c2pos (by decide)⟩

/-! ## Claim C4: totalSize conservation -/

/-- A trade whose size is below the closure epsilon (the C4 counterexample
input): a single entry of `5e-7` at price 100. -/
def c4trade : TradeEvent :=
  { signature := "c4", side := Side.BUY, price := 100, size := 1 / 2000000,
    marketId := 0, symbol := "SOL-USDC", timestamp := 1000, fee := 0,
    tradeType := TradeType.PERP }

unseal Rat.add Rat.mul Rat.inv Rat.sub in
/-- C4 counterexample: after syncing a single entry fill of size `5e-7`
(below epsilon), the stored `totalSize` is `0`, while the absolute
difference of entry and exit size sums over the accumulated fill set is
`5e-7 ≠ 0` — so `totalSize` does not always equal that difference. -/
theorem totalSize_conservation_cex :
    ((syncWallet "W" [c4trade] ⟨[], []⟩).1.positions.map Position.totalSize = [0])
    ∧ entrySizeSum ((syncWallet "W" [c4trade] ⟨[], []⟩).1.fills) -
        exitSizeSum ((syncWallet "W" [c4trade] ⟨[], []⟩).1.fills) = 1 / 2000000
    ∧ (0 : ℚ) ≠ |(1 : ℚ) / 2000000| := by
  refine ⟨by decide, by decide, ?_⟩
  rw [abs_of_pos (by norm_num : (0 : ℚ) < 1 / 2000000)]
  norm_num

/-- C4 amended: the stored `totalSize` equals `|entry sizes - exit sizes|`
over the complete accumulated fill set whenever that quantity is at least
epsilon, and is clamped to `0` when the position closes (`|netSize|` below
epsilon). -/
theorem totalSize_conservation_amended (groupSide : Side) (fills : List Fill)
    (p : Position) :
    (recomputePosition groupSide fills p).totalSize =
      if |netSizeSpec fills| < epsilon then 0 else |netSizeSpec fills| := by
  by_cases hc : |netSizeSpec fills| < epsilon
  · simp [recomputePosition, applyAggregate, FillAgg.isClosed, ratAbs_eq_abs, recompute_netSize, hc]
  · simp [recomputePosition, applyAggregate, FillAgg.isClosed, ratAbs_eq_abs, recompute_netSize, hc]

/-! ## Claim C5: cost-basis reset at a flat inventory -/

/-- C5 amended: in the per-fill replay of a grouping key (perp branch), when
the running inventory has returned to exactly zero and a new entry fill of
positive size arrives, the cost basis after that fill is exactly the fill's
price, and the inventory restarts at the fill's size — so a fully closed
cycle does not contaminate the new cycle's basis. -/
theorem basis_reset_exact_zero (posSide : PosSide) (initBasis : ℚ)
    (pre : List Fill) (f : Fill)
    (h0 : (replayFills posSide false initBasis pre).inv = 0)
    (hE : f.isEntry = true) (hsz : 0 < f.size) :
    (replayFills posSide false initBasis (pre ++ [f])).basis = f.price ∧
    (replayFills posSide false initBasis (pre ++ [f])).inv = f.size := by
  have hstep : replayFills posSide false initBasis (pre ++ [f]) =
      replayStep false posSide (replayFills posSide false initBasis pre) f := by
    rw [replayFills, replayFills, List.foldl_append, List.foldl_cons, List.foldl_nil]
  rw [hstep, replayStep]
  simp only [hE, h0]
  norm_num
  rw [if_pos hsz]
  field_simp

/-- First C5-counterexample fill: entry of 1 at 100. -/
def c5f1 : Fill :=
  { signature := "c5a", positionId := "P", price := 100, size := 1, fee := 0,
    isEntry := true, timestamp := 1, tradeType := some TradeType.PERP, side := none,
    funding := 0, socLoss := 0 }

/-- Second C5-counterexample fill: exit of `1 - 1e-7` at 100 — leaves the
inventory near zero (`1e-7`, below the closure epsilon) but not zero. -/
def c5f2 : Fill :=
  { signature := "c5b", positionId := "P", price := 100, size := 1 - 1 / 10000000,
    fee := 0, isEntry := false, timestamp := 2, tradeType := some TradeType.PERP,
    side := none, funding := 0, socLoss := 0 }

/-- Third C5-counterexample fill: a new entry of 1 at 200. -/
def c5f3 : Fill :=
  { signature := "c5c", positionId := "P", price := 200, size := 1, fee := 0,
    isEntry := true, timestamp := 3, tradeType := some TradeType.PERP, side := none,
    funding := 0, socLoss := 0 }

unseal Rat.add Rat.mul Rat.inv Rat.sub in
/-- C5 counterexample: after an entry of 1 at 100 and an exit of `1 - 1e-7`,
the running net size is near zero (below the closure epsilon) but nonzero;
when the new entry at price 200 arrives the cost basis does NOT reset to
200 — so the claim's "(near) zero" reading fails on the code, which resets
only at exactly zero inventory. -/
theorem basis_reset_near_zero_cex :
    ratAbs (replayFills PosSide.LONG false 100 [c5f1, c5f2]).inv < epsilon
    ∧ (replayFills PosSide.LONG false 100 [c5f1, c5f2]).inv ≠ 0
    ∧ c5f3.isEntry = true ∧ 0 < c5f3.size
    ∧ (replayFills PosSide.LONG false 100 [c5f1, c5f2, c5f3]).basis ≠ c5f3.price := by
  refine ⟨by decide, by decide, by decide, by decide, by decide⟩

unseal Rat.add Rat.mul Rat.inv Rat.sub in
theorem basis_reset_exact_zero_witness :
    ((replayFills PosSide.LONG false 100 [c2f1, c2f2]).inv = 0)
    ∧ ((replayFills PosSide.LONG false 100 ([c2f1, c2f2] ++ [c5f3])).basis = c5f3.price ∧
       (replayFills PosSide.LONG false 100 ([c2f1, c2f2] ++ [c5f3])).inv = c5f3.size) :=
  ⟨by decide,
   basis_reset_exact_zero PosSide.LONG 100 [c2f1, c2f2] c5f3
     (by decide) (by decide) (by decide)⟩

/-! ## Claim C6: SyncService's aggregate PnL vs PnlService's replay PnL -/

/-- No exit fill ever takes out more than the running net size (checked
along the list, starting from inventory `inv`). -/
def exitsFit (inv : ℚ) : List Fill → Bool
  | [] => true
  | f :: fs =>
      (if f.isEntry then true else decide (f.size ≤ inv)) &&
      exitsFit (if f.isEntry then inv + f.size else inv - f.size) fs

theorem replayStep_entry (posSide : PosSide) (s : ReplayState) (f : Fill)
    (hE : f.isEntry = true) :
    replayStep false posSide s f =
      { inv := s.inv + f.size
        basis := if 0 < s.inv + f.size then
            (s.inv * s.basis + f.price * f.size) / (s.inv + f.size) else s.basis
        realized := s.realized
        fees := s.fees + f.fee } := by
  simp [replayStep, hE]

theorem replayStep_exit (posSide : PosSide) (s : ReplayState) (f : Fill)
    (hE : f.isEntry = false) :
    replayStep false posSide s f =
      { inv := s.inv - f.size
        basis := if s.inv = 0 then f.price else s.basis
        realized := s.realized +
          (f.price - (if s.inv = 0 then f.price else s.basis)) * f.size *
            (if posSide = PosSide.LONG then 1 else -1)
        fees := s.fees + f.fee } := by
  by_cases h0 : s.inv = 0 <;> simp [replayStep, hE, h0]

/-- The conserved quantity of the perp replay loop: as long as sizes are
nonnegative and no exit overdraws the inventory, the realized PnL moves in
lockstep with `direction * (exit value - entry value + inventory * basis)`,
and the inventory moves by the net size of the consumed fills. -/
theorem replay_invariant (posSide : PosSide) (fills : List Fill) :
    ∀ s : ReplayState, (∀ f ∈ fills, 0 ≤ f.size) → exitsFit s.inv fills = true →
      0 ≤ s.inv →
      ((fills.foldl (replayStep false posSide) s).realized - s.realized =
          (if posSide = PosSide.LONG then 1 else -1) *
            (exitValueSum fills - entryValueSum fills +
              (fills.foldl (replayStep false posSide) s).inv *
                (fills.foldl (replayStep false posSide) s).basis -
              s.inv * s.basis))
      ∧ (fills.foldl (replayStep false posSide) s).inv = s.inv + netSizeSpec fills
      ∧ 0 ≤ (fills.foldl (replayStep false posSide) s).inv := by
  induction fills with
  | nil =>
      intro s _ _ hinv
      refine ⟨?_, ?_, by simpa using hinv⟩
      · simp [entryValueSum, exitValueSum]
      · simp [netSizeSpec, entrySizeSum, exitSizeSum]
  | cons f fs ih =>
      intro s hsz hfit hinv
      rw [exitsFit, Bool.and_eq_true] at hfit
      have hsz0 : 0 ≤ f.size := hsz f (List.mem_cons_self f fs)
      have hszR : ∀ g ∈ fs, 0 ≤ g.size := fun g hg => hsz g (List.mem_cons_of_mem f hg)
      by_cases hE : f.isEntry
      · -- entry fill
        have hstep := replayStep_entry posSide s f hE
        have hinv1 : 0 ≤ s.inv + f.size := by linarith
        have hinvstep : (replayStep false posSide s f).inv = s.inv + f.size := by
          rw [hstep]
        have hfit2 : exitsFit (replayStep false posSide s f).inv fs = true := by
          rw [hinvstep]
          have := hfit.2
          rw [if_pos hE] at this
          exact this
        rcases ih (replayStep false posSide s f) hszR hfit2
          (by rw [hinvstep]; exact hinv1) with ⟨h1, h2, h3⟩
        have hre : (replayStep false posSide s f).realized = s.realized := by rw [hstep]
        have hpool : (replayStep false posSide s f).inv *
            (replayStep false posSide s f).basis =
            s.inv * s.basis + f.price * f.size := by
          rw [hstep]
          by_cases hp : 0 < s.inv + f.size
          · simp only [if_pos hp]
            field_simp
          · have hz : s.inv + f.size = 0 := le_antisymm (le_of_not_lt hp) hinv1
            have hs0 : s.inv = 0 := by linarith
            have hf0 : f.size = 0 := by linarith
            simp only [if_neg hp, hz, hs0, hf0]
            ring
        rw [List.foldl_cons]
        refine ⟨?_, ?_, h3⟩
        · rw [hre] at h1
          rw [hpool] at h1
          simp only [entryValueSum_cons, exitValueSum_cons, if_pos hE]
          linear_combination h1
        · rw [hinvstep] at h2
          rw [h2, netSizeSpec, netSizeSpec, entrySizeSum_cons, exitSizeSum_cons,
            if_pos hE, if_pos hE]
          ring
      · -- exit fill
        have hEf : f.isEntry = false := by
          rw [Bool.not_eq_true] at hE
          exact hE
        have hle : f.size ≤ s.inv := by
          have := hfit.1
          rw [if_neg (by rw [hEf]; exact Bool.false_ne_true)] at this
          exact of_decide_eq_true this
        have hstep := replayStep_exit posSide s f hEf
        have hinv1 : 0 ≤ s.inv - f.size := by linarith
        have hinvstep : (replayStep false posSide s f).inv = s.inv - f.size := by
          rw [hstep]
        have hfit2 : exitsFit (replayStep false posSide s f).inv fs = true := by
          rw [hinvstep]
          have := hfit.2
          rw [if_neg (by rw [hEf]; exact Bool.false_ne_true)] at this
          exact this
        rcases ih (replayStep false posSide s f) hszR hfit2
          (by rw [hinvstep]; exact hinv1) with ⟨h1, h2, h3⟩
        have hre : (replayStep false posSide s f).realized = s.realized +
            (f.price - (if s.inv = 0 then f.price else s.basis)) * f.size *
              (if posSide = PosSide.LONG then 1 else -1) := by
          rw [hstep]
        have hpool : (replayStep false posSide s f).inv *
            (replayStep false posSide s f).basis =
            (s.inv - f.size) * (if s.inv = 0 then f.price else s.basis) := by
          rw [hstep]
        have hbase : s.inv * (if s.inv = 0 then f.price else s.basis) =
            s.inv * s.basis := by
          by_cases h0 : s.inv = 0
          · rw [h0]; ring
          · rw [if_neg h0]
        rw [List.foldl_cons]
        refine ⟨?_, ?_, h3⟩
        · rw [hre, hpool] at h1
          simp only [entryValueSum_cons, exitValueSum_cons, if_neg hE]
          linear_combination h1 -
            (if posSide = PosSide.LONG then (1 : ℚ) else -1) * hbase
        · rw [hinvstep] at h2
          rw [h2, netSizeSpec, netSizeSpec, entrySizeSum_cons, exitSizeSum_cons,
            if_neg hE, if_neg hE]
          ring

theorem entrySizeSum_nonneg (l : List Fill) (h : ∀ f ∈ l, 0 ≤ f.size) :
    0 ≤ entrySizeSum l := by
  induction l with
  | nil => simp [entrySizeSum]
  | cons f fs ih =>
      rw [entrySizeSum_cons]
      have h1 := h f (List.mem_cons_self f fs)
      have h2 := ih (fun g hg => h g (List.mem_cons_of_mem f hg))
      by_cases hE : f.isEntry
      · rw [if_pos hE]; linarith
      · rw [if_neg hE]; linarith

theorem exitSizeSum_nonneg (l : List Fill) (h : ∀ f ∈ l, 0 ≤ f.size) :
    0 ≤ exitSizeSum l := by
  induction l with
  | nil => simp [exitSizeSum]
  | cons f fs ih =>
      rw [exitSizeSum_cons]
      have h1 := h f (List.mem_cons_self f fs)
      have h2 := ih (fun g hg => h g (List.mem_cons_of_mem f hg))
      by_cases hE : f.isEntry
      · rw [if_pos hE]; linarith
      · rw [if_neg hE]; linarith

theorem entryValueSum_of_zero (l : List Fill) (h : ∀ f ∈ l, 0 ≤ f.size)
    (h0 : entrySizeSum l = 0) : entryValueSum l = 0 := by
  induction l with
  | nil => simp [entryValueSum]
  | cons f fs ih =>
      rw [entrySizeSum_cons] at h0
      rw [entryValueSum_cons]
      have h1 := h f (List.mem_cons_self f fs)
      have hR : ∀ g ∈ fs, 0 ≤ g.size := fun g hg => h g (List.mem_cons_of_mem f hg)
      have h2 := entrySizeSum_nonneg fs hR
      by_cases hE : f.isEntry
      · rw [if_pos hE] at h0
        rw [if_pos hE]
        have hf0 : f.size = 0 := by linarith
        have hs0 : entrySizeSum fs = 0 := by linarith
        rw [hf0, ih hR hs0]
        ring
      · rw [if_neg hE] at h0
        rw [if_neg hE, ih hR (by linarith)]
        ring

theorem exitValueSum_of_zero (l : List Fill) (h : ∀ f ∈ l, 0 ≤ f.size)
    (h0 : exitSizeSum l = 0) : exitValueSum l = 0 := by
  induction l with
  | nil => simp [exitValueSum]
  | cons f fs ih =>
      rw [exitSizeSum_cons] at h0
      rw [exitValueSum_cons]
      have h1 := h f (List.mem_cons_self f fs)
      have hR : ∀ g ∈ fs, 0 ≤ g.size := fun g hg => h g (List.mem_cons_of_mem f hg)
      have h2 := exitSizeSum_nonneg fs hR
      by_cases hE : f.isEntry
      · rw [if_pos hE] at h0
        rw [if_pos hE, ih hR (by linarith)]
        ring
      · rw [if_neg hE] at h0
        rw [if_neg hE]
        have hf0 : f.size = 0 := by linarith
        have hs0 : exitSizeSum fs = 0 := by linarith
        rw [hf0, ih hR hs0]
        ring

/-- C6 amended: the two realized-PnL computations agree on every fill set
that closes completely (total entry size equals total exit size) and in
which no exit fill exceeds the running net size; the counterexample shows
they differ on open positions. -/
theorem sync_replay_agree_closed (groupSide : Side) (initBasis : ℚ)
    (fills : List Fill)
    (hsz : ∀ f ∈ fills, 0 ≤ f.size)
    (hfit : exitsFit 0 fills = true)
    (hclosed : entrySizeSum fills = exitSizeSum fills) :
    (replayFills (if groupSide = Side.BUY then PosSide.LONG else PosSide.SHORT) false
        initBasis fills).realized
      = (aggregateFills fills).pricePnl groupSide := by
  set posSide := if groupSide = Side.BUY then PosSide.LONG else PosSide.SHORT with hps
  have hdir : (if posSide = PosSide.LONG then (1 : ℚ) else -1) = pnlMultiplier groupSide := by
    cases groupSide <;> simp [hps, pnlMultiplier]
  rcases replay_invariant posSide fills ⟨0, initBasis, 0, 0⟩ hsz (by exact hfit)
      (le_refl 0) with ⟨h1, h2, _⟩
  have hinvF : (fills.foldl (replayStep false posSide) ⟨0, initBasis, 0, 0⟩).inv = 0 := by
    rw [h2, netSizeSpec, hclosed]
    ring
  rw [replayFills]
  rw [hinvF] at h1
  simp only [zero_mul, mul_zero, sub_zero, add_zero, zero_add] at h1
  rw [FillAgg.pricePnl, FillAgg.avgEntryPrice, aggregateFills_exitSize,
    aggregateFills_exitValue, aggregateFills_entrySize, aggregateFills_entryValue]
  by_cases hS : 0 < exitSizeSum fills
  · rw [if_pos hS]
    have hES : 0 < entrySizeSum fills := by rw [hclosed]; exact hS
    rw [if_pos hES]
    rw [h1, ← hdir, hclosed]
    have hne : exitSizeSum fills ≠ 0 := ne_of_gt hS
    field_simp
  · rw [if_neg hS]
    have hS0 : exitSizeSum fills = 0 :=
      le_antisymm (le_of_not_lt hS) (exitSizeSum_nonneg fills hsz)
    have hE0 : entrySizeSum fills = 0 := by rw [hclosed, hS0]
    rw [h1, exitValueSum_of_zero fills hsz hS0, entryValueSum_of_zero fills hsz hE0]
    ring

/-- First C6-counterexample fill: entry of 1 at 100. -/
def c6f1 : Fill :=
  { signature := "c6a", positionId := "P", price := 100, size := 1, fee := 0,
    isEntry := true, timestamp := 1, tradeType := some TradeType.PERP, side := none,
    funding := 0, socLoss := 0 }

/-- Second C6-counterexample fill: exit of 1 at 200. -/
def c6f2 : Fill :=
  { signature := "c6b", positionId := "P", price := 200, size := 1, fee := 0,
    isEntry := false, timestamp := 2, tradeType := some TradeType.PERP, side := none,
    funding := 0, socLoss := 0 }

/-- Third C6-counterexample fill: entry of 1 at 300 (position stays open). -/
def c6f3 : Fill :=
  { signature := "c6c", positionId := "P", price := 300, size := 1, fee := 0,
    isEntry := true, timestamp := 3, tradeType := some TradeType.PERP, side := none,
    funding := 0, socLoss := 0 }

unseal Rat.add Rat.mul Rat.inv Rat.sub in
/-- C6 counterexample: on the LONG fill sequence entry 1@100, exit 1@200,
entry 1@300 (still open), SyncService's aggregate formula yields 0 while
PnlService's per-fill replay yields 100 — the two components do not
implement the same algorithm on open positions. -/
theorem sync_replay_pnl_cex :
    (aggregateFills [c6f1, c6f2, c6f3]).pricePnl Side.BUY = 0
    ∧ (replayFills PosSide.LONG false 100 [c6f1, c6f2, c6f3]).realized = 100
    ∧ ((0 : ℚ) ≠ 100) := by
  exact ⟨by decide, by decide, by decide⟩

/-- C6-witness entry fill: 1 at 100. -/
def c6w1 : Fill :=
  { signature := "c6d", positionId := "P", price := 100, size := 1, fee := 0,
    isEntry := true, timestamp := 1, tradeType := some TradeType.PERP, side := none,
    funding := 0, socLoss := 0 }

/-- C6-witness exit fill: 1 at 120. -/
def c6w2 : Fill :=
  { signature := "c6e", positionId := "P", price := 120, size := 1, fee := 0,
    isEntry := false, timestamp := 2, tradeType := some TradeType.PERP, side := none,
    funding := 0, socLoss := 0 }

unseal Rat.add Rat.mul Rat.inv Rat.sub in
theorem sync_replay_agree_closed_witness :
    (∀ f ∈ [c6w1, c6w2], 0 ≤ f.size)
    ∧ exitsFit 0 [c6w1, c6w2] = true
    ∧ entrySizeSum [c6w1, c6w2] = exitSizeSum [c6w1, c6w2]
    ∧ (replayFills (if Side.BUY = Side.BUY then PosSide.LONG else PosSide.SHORT) false
        100 [c6w1, c6w2]).realized = (aggregateFills [c6w1, c6w2]).pricePnl Side.BUY :=
  ⟨by decide, by decide, by decide,
   sync_replay_agree_closed Side.BUY 100 [c6w1, c6w2] (by decide) (by decide) (by decide)⟩

/-! ## Claim C7: unrealized PnL formula and sign -/

/-- C7: when a mark price `m` is available (and nonzero, so the `||`
fallback does not fire), the reported unrealized PnL is exactly
`(markPrice - avgCostBasis) * |netSize| * direction` with direction `-1`
for a SHORT perp and `+1` otherwise; hence for a LONG position with
nonzero net size it is positive iff the mark price exceeds the cost basis,
and for a SHORT perp iff the mark price is below it. -/
theorem unrealized_pnl_sign (pos : Position) (fills : List Fill)
    (livePrices : List (String × ℚ)) (m : ℚ)
    (hm : lookupStr livePrices pos.market = some m) (hm0 : m ≠ 0) :
    ((perfForPosition pos fills livePrices).unrealized =
        (m - (replayOf pos fills).basis) * ratAbs (replayOf pos fills).inv *
          pnlFactorOf pos fills)
    ∧ (0 < ratAbs (replayOf pos fills).inv → pos.side = PosSide.LONG →
        (0 < (perfForPosition pos fills livePrices).unrealized ↔
          (replayOf pos fills).basis < m))
    ∧ (0 < ratAbs (replayOf pos fills).inv → pos.side = PosSide.SHORT →
        isSpotOf fills = false →
        (0 < (perfForPosition pos fills livePrices).unrealized ↔
          m < (replayOf pos fills).basis)) := by
  have hcp : currentPriceOf pos fills livePrices = m := by
    rw [currentPriceOf, hm]
    simp [hm0]
  have hun : (perfForPosition pos fills livePrices).unrealized =
      (m - (replayOf pos fills).basis) * ratAbs (replayOf pos fills).inv *
        pnlFactorOf pos fills := by
    rw [perfForPosition]
    simp only [hcp]
  refine ⟨hun, ?_, ?_⟩
  · intro hA hL
    have hf : pnlFactorOf pos fills = 1 := by
      rw [pnlFactorOf, if_neg]
      intro hcontra
      rw [hL] at hcontra
      cases hcontra.2
    rw [hun, hf, mul_one]
    constructor
    · intro h
      nlinarith
    · intro h
      exact mul_pos (by linarith) hA
  · intro hA hS hsp
    have hf : pnlFactorOf pos fills = -1 := by
      rw [pnlFactorOf, if_pos ⟨hsp, hS⟩]
    rw [hun, hf]
    constructor
    · intro h
      nlinarith
    · intro h
      nlinarith

/-- C7-witness fill: a LONG perp entry of 1 at 100. -/
def c7fill : Fill :=
  { signature := "c7", positionId := "P", price := 100, size := 1, fee := 0,
    isEntry := true, timestamp := 1, tradeType := some TradeType.PERP, side := none,
    funding := 0, socLoss := 0 }

/-- C7-witness position row. -/
def c7pos : Position :=
  { id := "P", walletAddress := "W", market := "SOL-USDC", side := PosSide.LONG,
    status := PosStatus.OPEN, avgEntryPrice := 100, avgExitPrice := none,
    totalSize := 1, totalFees := 0, realizedPnl := none, createdAt := 1,
    updatedAt := 1, closedAt := none }

unseal Rat.add Rat.mul Rat.inv Rat.sub in
theorem unrealized_pnl_sign_witness :
    (lookupStr [("SOL-USDC", 110)] c7pos.market = some 110) ∧ ((110 : ℚ) ≠ 0)
    ∧ (((perfForPosition c7pos [c7fill] [("SOL-USDC", 110)]).unrealized =
        (110 - (replayOf c7pos [c7fill]).basis) * ratAbs (replayOf c7pos [c7fill]).inv *
          pnlFactorOf c7pos [c7fill])
      ∧ (0 < ratAbs (replayOf c7pos [c7fill]).inv → c7pos.side = PosSide.LONG →
          (0 < (perfForPosition c7pos [c7fill] [("SOL-USDC", 110)]).unrealized ↔
            (replayOf c7pos [c7fill]).basis < 110))
      ∧ (0 < ratAbs (replayOf c7pos [c7fill]).inv → c7pos.side = PosSide.SHORT →
          isSpotOf [c7fill] = false →
          (0 < (perfForPosition c7pos [c7fill] [("SOL-USDC", 110)]).unrealized ↔
            110 < (replayOf c7pos [c7fill]).basis))) :=
  ⟨by decide, by decide,
   unrealized_pnl_sign c7pos [c7fill] [("SOL-USDC", 110)] 110 (by decide) (by decide)⟩

/-! ## Claim C8: price-source failure fallback -/

/-- C8 amended: `getMultiplePrices` uses the cached prices when the fetch
THROWS (regardless of cache age, provided some market maps to a CoinGecko
id); a NON-OK response yields no prices even when a cache exists (unless the
cache is still fresh); a position whose market has no live price falls back
to its own cost basis, making its unrealized PnL exactly zero; and every
returned price map is empty, the cached map, or built from the fetched JSON
— never a hardcoded guess. -/
theorem price_fallback_amended (c : PriceCache) (now : ℕ) (names : List String)
    (pos : Position) (fills : List Fill) (livePrices : List (String × ℚ))
    (cache : Option PriceCache) (outcome : FetchOutcome) :
    ((dedupNames names).filterMap coingeckoId ≠ [] →
      (getMultiplePrices (some c) now names FetchOutcome.threw).1 = c.prices)
    ∧ (cacheTtlMs ≤ now - c.timestamp →
      (getMultiplePrices (some c) now names FetchOutcome.nonOk).1 = [])
    ∧ (lookupStr livePrices pos.market = none →
        currentPriceOf pos fills livePrices = (replayOf pos fills).basis
        ∧ (perfForPosition pos fills livePrices).unrealized = 0)
    ∧ ((getMultiplePrices cache now names outcome).1 = []
        ∨ (∃ c', cache = some c' ∧
            (getMultiplePrices cache now names outcome).1 = c'.prices)
        ∨ (∃ byId, outcome = FetchOutcome.ok byId ∧
            (getMultiplePrices cache now names outcome).1 =
              pricesFromJson (dedupNames names) byId)) := by
  refine ⟨?_, ?_, ?_, ?_⟩
  · intro hcg
    rw [getMultiplePrices]
    by_cases hfresh : now - c.timestamp < cacheTtlMs
    · rw [if_pos hfresh]
    · rw [if_neg hfresh, fetchMultiplePrices.eq_def]
      have : ((dedupNames names).filterMap coingeckoId).isEmpty = false := by
        cases h : (dedupNames names).filterMap coingeckoId with
        | nil => exact absurd h hcg
        | cons a l => rfl
      simp only [this]
      rfl
  · intro hstale
    rw [getMultiplePrices]
    rw [if_neg (not_lt.mpr hstale), fetchMultiplePrices.eq_def]
    by_cases he : ((dedupNames names).filterMap coingeckoId).isEmpty
    · simp only [he]
      rfl
    · simp only [eq_false_of_ne_true he]
      rfl
  · intro hnone
    have hcp : currentPriceOf pos fills livePrices = (replayOf pos fills).basis := by
      rw [currentPriceOf, hnone]
    refine ⟨hcp, ?_⟩
    rw [perfForPosition]
    simp only [hcp]
    ring
  · cases cache with
    | none =>
        rw [getMultiplePrices, fetchMultiplePrices.eq_def]
        by_cases he : ((dedupNames names).filterMap coingeckoId).isEmpty
        · simp only [he]
          left
          rfl
        · simp only [eq_false_of_ne_true he]
          cases outcome with
          | ok byId => exact Or.inr (Or.inr ⟨byId, rfl, rfl⟩)
          | nonOk => exact Or.inl rfl
          | threw => exact Or.inl rfl
    | some c' =>
        rw [getMultiplePrices]
        by_cases hfresh : now - c'.timestamp < cacheTtlMs
        · rw [if_pos hfresh]
          exact Or.inr (Or.inl ⟨c', rfl, rfl⟩)
        · rw [if_neg hfresh, fetchMultiplePrices.eq_def]
          by_cases he : ((dedupNames names).filterMap coingeckoId).isEmpty
          · simp only [he]
            left
            rfl
          · simp only [eq_false_of_ne_true he]
            cases outcome with
            | ok byId => exact Or.inr (Or.inr ⟨byId, rfl, rfl⟩)
            | nonOk => exact Or.inl rfl
            | threw => exact Or.inr (Or.inl ⟨c', rfl, rfl⟩)

/-- C8 fill: a LONG perp entry of 1 at 100 (cost basis 100). -/
def c8fill : Fill :=
  { signature := "c8", positionId := "P", price := 100, size := 1, fee := 0,
    isEntry := true, timestamp := 1, tradeType := some TradeType.PERP, side := none,
    funding := 0, socLoss := 0 }

/-- C8 position row for the SOL-USDC market. -/
def c8pos : Position :=
  { id := "P", walletAddress := "W", market := "SOL-USDC", side := PosSide.LONG,
    status := PosStatus.OPEN, avgEntryPrice := 100, avgExitPrice := none,
    totalSize := 1, totalFees := 0, realizedPnl := none, createdAt := 1,
    updatedAt := 1, closedAt := none }

unseal Rat.add Rat.mul Rat.inv Rat.sub in
/-- C8 counterexample: the price source fails with a non-ok response while a
stale cached price (50) for SOL-USDC exists; `getMultiplePrices` returns no
prices, so the position's own cost basis (100) — not the cached 50 — is
used as the current price.  The claim's "falls back to the last
successfully cached price" is false for the non-ok failure path. -/
theorem price_fallback_cex :
    (getMultiplePrices (some ⟨0, [("SOL-USDC", 50)]⟩) 60000 ["SOL-USDC"]
        FetchOutcome.nonOk).1 = []
    ∧ currentPriceOf c8pos [c8fill] [] = 100
    ∧ ((100 : ℚ) ≠ 50) := by
  exact ⟨by decide, by decide, by decide⟩

unseal Rat.add Rat.mul Rat.inv Rat.sub in
theorem price_fallback_amended_witness :
    ((dedupNames ["SOL-USDC"]).filterMap coingeckoId ≠ [])
    ∧ (getMultiplePrices (some ⟨0, [("SOL-USDC", 50)]⟩) 120000 ["SOL-USDC"]
        FetchOutcome.threw).1 = [("SOL-USDC", 50)] :=
  ⟨by decide,
   (price_fallback_amended ⟨0, [("SOL-USDC", 50)]⟩ 120000 ["SOL-USDC"] c8pos [c8fill]
      [] none FetchOutcome.nonOk).1 (by decide)⟩

/-! ## Claim C9: market-id resolution order -/

/-- The raw price lies outside every price band of the heuristic. -/
def bandFree (p : ℚ) : Prop :=
  ¬(10000 < p) ∧ ¬(10 < p ∧ p < 500) ∧ ¬((9 / 10 : ℚ) < p ∧ p < 11 / 10)

/-- A C9-counterexample event: an explicit `instrId` of 5 with a price of
200, inside the SOL price band. -/
def c9event : RawEvent :=
  { instrId := some 5, marketId := none, assetId := none,
    instrumentIndex := none, orderId := none, price := 200 }

unseal Rat.mul Rat.inv in
/-- C9 counterexample: for a fill event carrying an explicit id field
(`instrId = 5`) whose raw price (200) lies inside a known band, the
resolver returns the band's market id 0 (SOL), not the explicit 5 — so the
explicit id field does NOT take priority over the price-range heuristic. -/
theorem market_resolution_order_cex :
    c9event.instrId = some 5
    ∧ (resolveInstrId [] c9event).1 = 0
    ∧ ((0 : Int) ≠ 5) := by
  exact ⟨by decide, by decide, by decide⟩

/-- C9 amended: the price-band heuristic is applied FIRST — a raw price
above 10000 maps to id 99, one in (10, 500) to id 0, one in (0.9, 1.1) to
id 100, regardless of any explicit id fields; only for a price outside all
bands is the explicit `instrId` used, then `marketId`, then the
same-transaction order-id correlation map, and finally `-1`. -/
theorem market_resolution_order_amended (m : List (Int × Int)) (e : RawEvent) :
    (10000 < e.price → (resolveInstrId m e).1 = 99)
    ∧ (10 < e.price ∧ e.price < 500 → (resolveInstrId m e).1 = 0)
    ∧ ((9 / 10 : ℚ) < e.price ∧ e.price < 11 / 10 → (resolveInstrId m e).1 = 100)
    ∧ (bandFree e.price → ∀ i, e.instrId = some i → (resolveInstrId m e).1 = i)
    ∧ (bandFree e.price → e.instrId = none → ∀ j, e.marketId = some j →
        (resolveInstrId m e).1 = j)
    ∧ (bandFree e.price → e.instrId = none → e.marketId = none →
        ∀ o k, e.orderId = some o → lookupAssoc m o = some k →
        (resolveInstrId m e).1 = k)
    ∧ (bandFree e.price → e.instrId = none → e.marketId = none →
        (match e.orderId with
         | some o => lookupAssoc m o
         | none => none) = none → (resolveInstrId m e).1 = -1) := by
  refine ⟨?_, ?_, ?_, ?_, ?_, ?_, ?_⟩
  · intro h
    rw [resolveInstrId, if_pos h]
  · intro h
    have h1 : ¬(10000 < e.price) := by
      intro hc
      linarith [h.2]
    rw [resolveInstrId, if_neg h1, if_pos h]
  · intro h
    have h1 : ¬(10000 < e.price) := by
      intro hc
      linarith [h.2]
    have h2 : ¬(10 < e.price ∧ e.price < 500) := by
      intro hc
      linarith [h.2, hc.1]
    rw [resolveInstrId, if_neg h1, if_neg h2, if_pos h]
  · intro hb i hi
    rw [resolveInstrId, if_neg hb.1, if_neg hb.2.1, if_neg hb.2.2]
    simp [hi]
  · intro hb hi j hj
    rw [resolveInstrId, if_neg hb.1, if_neg hb.2.1, if_neg hb.2.2]
    simp [hi, hj]
  · intro hb hi hj o k ho hk
    rw [resolveInstrId, if_neg hb.1, if_neg hb.2.1, if_neg hb.2.2]
    simp [hi, hj, ho, hk]
  · intro hb hi hj ho
    rw [resolveInstrId, if_neg hb.1, if_neg hb.2.1, if_neg hb.2.2]
    simp [hi, hj, ho]

/-- A C9-witness event: explicit `instrId = 7` with a price of 600, outside
every band. -/
def c9wevent : RawEvent :=
  { instrId := some 7, marketId := none, assetId := none,
    instrumentIndex := none, orderId := none, price := 600 }

unseal Rat.mul Rat.inv in
theorem market_resolution_order_amended_witness :
    bandFree c9wevent.price ∧ c9wevent.instrId = some 7
    ∧ (resolveInstrId [] c9wevent).1 = 7 :=
  ⟨by rw [bandFree]; norm_num [c9wevent], by decide,
   (market_resolution_order_amended [] c9wevent).2.2.2.1
     (by rw [bandFree]; norm_num [c9wevent]) 7 (by decide)⟩

/-! ## Store-level lemmas about the fill upsert -/

/-- Two fill rows agreeing on every column except possibly the fee (the
only column the upsert's update branch touches). -/
def coreEq (g g' : Fill) : Prop := g' = { g with fee := g'.fee }

theorem coreEq_refl (g : Fill) : coreEq g g := rfl

theorem coreEq_trans {a b c : Fill} (h1 : coreEq a b) (h2 : coreEq b c) : coreEq a c := by
  rw [coreEq] at h1 h2 ⊢
  rw [h2, h1]

theorem coreEq_sig {g g' : Fill} (h : coreEq g g') : g'.signature = g.signature := by
  rw [coreEq] at h
  rw [h]

theorem coreEq_ts {g g' : Fill} (h : coreEq g g') : g'.timestamp = g.timestamp := by
  rw [coreEq] at h
  rw [h]

theorem coreEq_pid {g g' : Fill} (h : coreEq g g') : g'.positionId = g.positionId := by
  rw [coreEq] at h
  rw [h]

/-- Pairwise-distinct signatures across the `Fill` table (the
`Fill_signature_key` unique index). -/
def sigsNodup (rows : List Fill) : Prop := (rows.map Fill.signature).Nodup

instance (rows : List Fill) : Decidable (sigsNodup rows) := by
  unfold sigsNodup
  infer_instance

theorem sig_mem_iff_any (rows : List Fill) (σ : String) :
    rows.any (fun g => g.signature = σ) = true ↔ σ ∈ rows.map Fill.signature := by
  rw [List.any_eq_true]
  constructor
  · rintro ⟨g, hg, hs⟩
    rw [List.mem_map]
    exact ⟨g, hg, of_decide_eq_true hs⟩
  · intro h
    rcases List.mem_map.mp h with ⟨g, hg, hs⟩
    exact ⟨g, hg, decide_eq_true hs⟩

theorem fillsUpsert_sigs_of_mem (rows : List Fill) (f : Fill)
    (h : f.signature ∈ rows.map Fill.signature) :
    (fillsUpsert rows f).map Fill.signature = rows.map Fill.signature := by
  rw [fillsUpsert, if_pos ((sig_mem_iff_any rows f.signature).mpr h), List.map_map]
  apply List.map_congr_left
  intro g _
  by_cases hs : g.signature = f.signature
  · simp [hs]
  · simp [hs]

theorem fillsUpsert_sigs_of_not_mem (rows : List Fill) (f : Fill)
    (h : f.signature ∉ rows.map Fill.signature) :
    (fillsUpsert rows f).map Fill.signature = rows.map Fill.signature ++ [f.signature] := by
  have hany : rows.any (fun g => g.signature = f.signature) = false := by
    rw [← Bool.not_eq_true, sig_mem_iff_any]
    exact h
  rw [fillsUpsert, if_neg (by rw [hany]; exact Bool.false_ne_true), List.map_append]
  rfl

theorem fillsUpsert_nodup (rows : List Fill) (f : Fill) (h : sigsNodup rows) :
    sigsNodup (fillsUpsert rows f) := by
  by_cases hm : f.signature ∈ rows.map Fill.signature
  · rw [sigsNodup, fillsUpsert_sigs_of_mem rows f hm]
    exact h
  · rw [sigsNodup, fillsUpsert_sigs_of_not_mem rows f hm, List.nodup_append]
    refine ⟨h, List.nodup_singleton _, ?_⟩
    intro a ha hb
    rw [List.mem_singleton] at hb
    subst hb
    exact hm ha

theorem foldUpsert_nodup (fs : List Fill) (rows : List Fill) (h : sigsNodup rows) :
    sigsNodup (fs.foldl fillsUpsert rows) := by
  induction fs generalizing rows with
  | nil => exact h
  | cons f fs ih => exact ih _ (fillsUpsert_nodup rows f h)

theorem fillsUpsert_core_sub (rows : List Fill) (f : Fill) (g : Fill) (hg : g ∈ rows) :
    ∃ g' ∈ fillsUpsert rows f, coreEq g g' := by
  rw [fillsUpsert]
  by_cases hc : rows.any (fun x => x.signature = f.signature) = true
  · rw [if_pos hc]
    refine ⟨if g.signature = f.signature then { g with fee := f.fee } else g,
      List.mem_map_of_mem _ hg, ?_⟩
    by_cases hs : g.signature = f.signature
    · rw [if_pos hs]
      rfl
    · rw [if_neg hs]
      exact coreEq_refl g
  · rw [if_neg hc]
    exact ⟨g, List.mem_append_left _ hg, coreEq_refl g⟩

theorem fillsUpsert_src (rows : List Fill) (f : Fill) (g' : Fill)
    (h : g' ∈ fillsUpsert rows f) :
    (∃ g ∈ rows, coreEq g g') ∨ coreEq f g' := by
  rw [fillsUpsert] at h
  by_cases hc : rows.any (fun x => x.signature = f.signature) = true
  · rw [if_pos hc] at h
    rcases List.mem_map.mp h with ⟨g, hg, hgeq⟩
    left
    refine ⟨g, hg, ?_⟩
    by_cases hs : g.signature = f.signature
    · rw [if_pos hs] at hgeq
      rw [coreEq, ← hgeq]
    · rw [if_neg hs] at hgeq
      rw [← hgeq]
      exact coreEq_refl g
  · rw [if_neg hc] at h
    rcases List.mem_append.mp h with h | h
    · exact Or.inl ⟨g', h, coreEq_refl g'⟩
    · rw [List.mem_singleton] at h
      subst h
      exact Or.inr (coreEq_refl g')

theorem fillsUpsert_sig_covered (rows : List Fill) (f : Fill) :
    ∃ g' ∈ fillsUpsert rows f, g'.signature = f.signature := by
  rw [fillsUpsert]
  by_cases hc : rows.any (fun x => x.signature = f.signature) = true
  · rw [if_pos hc]
    rcases List.mem_map.mp ((sig_mem_iff_any rows f.signature).mp hc) with ⟨g, hg, hs⟩
    refine ⟨if g.signature = f.signature then { g with fee := f.fee } else g,
      List.mem_map_of_mem _ hg, ?_⟩
    rw [if_pos hs]
    exact hs
  · rw [if_neg hc]
    exact ⟨f, List.mem_append_right _ (List.mem_singleton_self f), rfl⟩

theorem fillsUpsert_sig_preserved (rows : List Fill) (f : Fill) (σ : String)
    (h : ∃ g ∈ rows, g.signature = σ) :
    ∃ g' ∈ fillsUpsert rows f, g'.signature = σ := by
  rcases h with ⟨g, hg, hs⟩
  rcases fillsUpsert_core_sub rows f g hg with ⟨g', hg', hcore⟩
  exact ⟨g', hg', by rw [coreEq_sig hcore, hs]⟩

theorem foldUpsert_core_sub (fs : List Fill) (rows : List Fill) (g : Fill)
    (hg : g ∈ rows) : ∃ g' ∈ fs.foldl fillsUpsert rows, coreEq g g' := by
  induction fs generalizing rows g with
  | nil => exact ⟨g, hg, coreEq_refl g⟩
  | cons f fs ih =>
      rcases fillsUpsert_core_sub rows f g hg with ⟨g1, hg1, hcore1⟩
      rcases ih (fillsUpsert rows f) g1 hg1 with ⟨g', hg', hcore2⟩
      exact ⟨g', hg', coreEq_trans hcore1 hcore2⟩

theorem foldUpsert_src (fs : List Fill) (rows : List Fill) (g' : Fill)
    (h : g' ∈ fs.foldl fillsUpsert rows) :
    (∃ g ∈ rows, coreEq g g') ∨ (∃ f ∈ fs, coreEq f g') := by
  induction fs generalizing rows with
  | nil => exact Or.inl ⟨g', h, coreEq_refl g'⟩
  | cons f fs ih =>
      rcases ih (fillsUpsert rows f) h with h1 | h1
      · rcases h1 with ⟨g1, hg1, hcore1⟩
        rcases fillsUpsert_src rows f g1 hg1 with h2 | h2
        · rcases h2 with ⟨g, hg, hcore2⟩
          exact Or.inl ⟨g, hg, coreEq_trans hcore2 hcore1⟩
        · exact Or.inr ⟨f, List.mem_cons_self f fs, coreEq_trans h2 hcore1⟩
      · rcases h1 with ⟨u, hu, hcore⟩
        exact Or.inr ⟨u, List.mem_cons_of_mem f hu, hcore⟩

theorem foldUpsert_sig_preserved (fs : List Fill) (rows : List Fill) (σ : String)
    (h : ∃ g ∈ rows, g.signature = σ) :
    ∃ g' ∈ fs.foldl fillsUpsert rows, g'.signature = σ := by
  induction fs generalizing rows with
  | nil => exact h
  | cons f fs ih => exact ih _ (fillsUpsert_sig_preserved rows f σ h)

theorem foldUpsert_sig_covered (fs : List Fill) (rows : List Fill) (f : Fill)
    (hf : f ∈ fs) :
    ∃ g' ∈ fs.foldl fillsUpsert rows, g'.signature = f.signature := by
  induction fs generalizing rows with
  | nil => cases hf
  | cons u fs ih =>
      rcases List.mem_cons.mp hf with h1 | h1
      · subst h1
        exact foldUpsert_sig_preserved fs (fillsUpsert rows f) f.signature
          (fillsUpsert_sig_covered rows f)
      · exact ih _ h1

/-! ## Store composition and well-formedness -/

/-- A position row with the given id exists. -/
def idPresent (s : Store) (pid : String) : Prop := ∃ p ∈ s.positions, p.id = pid

/-- The store belongs to one wallet and satisfies referential integrity:
every position carries the wallet's address and every fill's `positionId`
resolves to a position row. -/
def WFStore (s : Store) (w : String) : Prop :=
  (∀ p ∈ s.positions, p.walletAddress = w) ∧ (∀ f ∈ s.fills, idPresent s f.positionId)

instance (s : Store) (pid : String) : Decidable (idPresent s pid) := by
  unfold idPresent
  infer_instance

instance (s : Store) (w : String) : Decidable (WFStore s w) := by
  unfold WFStore
  infer_instance

theorem ensurePosition_fills (s : Store) (pid w : String) (g : TradeGroup) (c : ℕ) :
    (ensurePosition s pid w g c).fills = s.fills := by
  rw [ensurePosition]
  cases findPosition s pid <;> rfl

theorem updatePosition_fills (s : Store) (pid : String) (upd : Position → Position) :
    (updatePosition s pid upd).fills = s.fills := rfl

theorem recomputePosition_id (gs : Side) (fills : List Fill) (p : Position) :
    (recomputePosition gs fills p).id = p.id := rfl

theorem recomputePosition_wallet (gs : Side) (fills : List Fill) (p : Position) :
    (recomputePosition gs fills p).walletAddress = p.walletAddress := rfl

theorem idPresent_setFills (s : Store) (rows : List Fill) (pid : String)
    (h : idPresent s pid) : idPresent { s with fills := rows } pid := h

theorem idPresent_updatePosition (s : Store) (pid0 pid : String)
    (upd : Position → Position) (hupd : ∀ p, (upd p).id = p.id)
    (h : idPresent s pid) : idPresent (updatePosition s pid0 upd) pid := by
  rcases h with ⟨p, hp, hid⟩
  refine ⟨if p.id = pid0 then upd p else p, List.mem_map_of_mem _ hp, ?_⟩
  by_cases hc : p.id = pid0
  · rw [if_pos hc, hupd]
    exact hid
  · rw [if_neg hc]
    exact hid

theorem idPresent_ensure_mono (s : Store) (pid w : String) (g : TradeGroup) (c : ℕ)
    (pid' : String) (h : idPresent s pid') :
    idPresent (ensurePosition s pid w g c) pid' := by
  rw [ensurePosition]
  rcases h with ⟨p, hp, hid⟩
  cases findPosition s pid with
  | some q => exact ⟨p, hp, hid⟩
  | none => exact ⟨p, List.mem_append_left _ hp, hid⟩

theorem idPresent_ensure_self (s : Store) (pid w : String) (g : TradeGroup) (c : ℕ) :
    idPresent (ensurePosition s pid w g c) pid := by
  rw [ensurePosition]
  rw [findPosition]
  cases hf : s.positions.find? (fun p => p.id = pid) with
  | some q =>
      refine ⟨q, List.mem_of_find?_eq_some hf, ?_⟩
      have hq := List.find?_some hf
      exact of_decide_eq_true hq
  | none => exact ⟨newPosition pid w g c, List.mem_append_right _ (List.mem_singleton_self _),
      rfl⟩

theorem mkFill_pid (pid : String) (gs : Side) (t : TradeEvent) :
    (mkFill pid gs t).positionId = pid := rfl

theorem mkFill_sig (pid : String) (gs : Side) (t : TradeEvent) :
    (mkFill pid gs t).signature = t.signature := rfl

theorem mkFill_ts (pid : String) (gs : Side) (t : TradeEvent) :
    (mkFill pid gs t).timestamp = t.timestamp := rfl

theorem newPosition_wallet (pid w : String) (g : TradeGroup) (c : ℕ) :
    (newPosition pid w g c).walletAddress = w := rfl

theorem WF_ensure (s : Store) (w pid : String) (g : TradeGroup) (c : ℕ)
    (h : WFStore s w) : WFStore (ensurePosition s pid w g c) w := by
  constructor
  · intro p hp
    rw [ensurePosition] at hp
    cases hfp : findPosition s pid with
    | some q =>
        rw [hfp] at hp
        exact h.1 p hp
    | none =>
        rw [hfp] at hp
        rcases List.mem_append.mp hp with h1 | h1
        · exact h.1 p h1
        · rw [List.mem_singleton] at h1
          subst h1
          rfl
  · intro f hf
    rw [ensurePosition_fills] at hf
    exact idPresent_ensure_mono s pid w g c _ (h.2 f hf)

theorem WF_updatePosition (s : Store) (w pid : String) (upd : Position → Position)
    (hid : ∀ p, (upd p).id = p.id) (hw : ∀ p, (upd p).walletAddress = p.walletAddress)
    (h : WFStore s w) : WFStore (updatePosition s pid upd) w := by
  constructor
  · intro p hp
    rcases List.mem_map.mp hp with ⟨q, hq, hqe⟩
    by_cases hc : q.id = pid
    · rw [if_pos hc] at hqe
      rw [← hqe, hw]
      exact h.1 q hq
    · rw [if_neg hc] at hqe
      rw [← hqe]
      exact h.1 q hq
  · intro f hf
    rw [updatePosition_fills] at hf
    exact idPresent_updatePosition s pid _ upd hid (h.2 f hf)

theorem processGroup_fills (w : String) (acc : Store × ℕ) (kg : String × TradeGroup) :
    ((processGroup w acc kg).1).fills = (groupFills w kg).foldl fillsUpsert acc.1.fills := by
  simp only [processGroup, updatePosition_fills]
  rw [ensurePosition_fills]

theorem processGroup_WF (w : String) (acc : Store × ℕ) (kg : String × TradeGroup)
    (h : WFStore acc.1 w) : WFStore ((processGroup w acc kg).1) w := by
  simp only [processGroup]
  apply WF_updatePosition _ _ _ _ (fun p => recomputePosition_id _ _ p)
    (fun p => recomputePosition_wallet _ _ p)
  have hWF1 := WF_ensure acc.1 w (dbPositionId kg.1 w) kg.2 (firstTradeTimestamp kg.2.trades) h
  constructor
  · exact hWF1.1
  · intro f hf
    rcases foldUpsert_src _ _ f hf with h1 | h1
    · rcases h1 with ⟨g, hg, hcore⟩
      rw [coreEq_pid hcore]
      exact idPresent_setFills _ _ _ (hWF1.2 g hg)
    · rcases h1 with ⟨u, hu, hcore⟩
      rcases List.mem_map.mp hu with ⟨t, _, hte⟩
      rw [coreEq_pid hcore, ← hte, mkFill_pid]
      exact idPresent_setFills _ _ _
        (idPresent_ensure_self acc.1 (dbPositionId kg.1 w) w kg.2
          (firstTradeTimestamp kg.2.trades))

/-! ## The grouping map covers exactly the input trades -/

theorem insertTrade_src (groups : List (String × TradeGroup)) (t : TradeEvent)
    (kg : String × TradeGroup) (hkg : kg ∈ insertTrade groups t)
    (u : TradeEvent) (hu : u ∈ kg.2.trades) :
    (∃ kg' ∈ groups, u ∈ kg'.2.trades) ∨ u = t := by
  rw [insertTrade] at hkg
  by_cases hc : groups.any (fun g => g.1 = groupKey t) = true
  · rw [if_pos hc] at hkg
    rcases List.mem_map.mp hkg with ⟨kg', hkg', hke⟩
    by_cases hk : kg'.1 = groupKey t
    · rw [if_pos hk] at hke
      rw [← hke] at hu
      rcases List.mem_append.mp hu with h1 | h1
      · exact Or.inl ⟨kg', hkg', h1⟩
      · rw [List.mem_singleton] at h1
        exact Or.inr h1
    · rw [if_neg hk] at hke
      rw [← hke] at hu
      exact Or.inl ⟨kg', hkg', hu⟩
  · rw [if_neg hc] at hkg
    rcases List.mem_append.mp hkg with h1 | h1
    · exact Or.inl ⟨kg, h1, hu⟩
    · rw [List.mem_singleton] at h1
      rw [h1] at hu
      rw [List.mem_singleton] at hu
      exact Or.inr hu

theorem insertTrade_mono (groups : List (String × TradeGroup)) (t : TradeEvent)
    (kg : String × TradeGroup) (hkg : kg ∈ groups) (u : TradeEvent)
    (hu : u ∈ kg.2.trades) :
    ∃ kg' ∈ insertTrade groups t, u ∈ kg'.2.trades := by
  rw [insertTrade]
  by_cases hc : groups.any (fun g => g.1 = groupKey t) = true
  · rw [if_pos hc]
    refine ⟨if kg.1 = groupKey t then (kg.1, { kg.2 with trades := kg.2.trades ++ [t] })
      else kg, List.mem_map_of_mem _ hkg, ?_⟩
    by_cases hk : kg.1 = groupKey t
    · rw [if_pos hk]
      exact List.mem_append_left _ hu
    · rw [if_neg hk]
      exact hu
  · rw [if_neg hc]
    exact ⟨kg, List.mem_append_left _ hkg, hu⟩

theorem insertTrade_self (groups : List (String × TradeGroup)) (t : TradeEvent) :
    ∃ kg ∈ insertTrade groups t, t ∈ kg.2.trades := by
  rw [insertTrade]
  by_cases hc : groups.any (fun g => g.1 = groupKey t) = true
  · rw [if_pos hc]
    rcases List.any_eq_true.mp hc with ⟨kg, hkg, hk⟩
    have hk' : kg.1 = groupKey t := of_decide_eq_true hk
    refine ⟨(kg.1, { kg.2 with trades := kg.2.trades ++ [t] }), ?_, ?_⟩
    · have : (if kg.1 = groupKey t then (kg.1, { kg.2 with trades := kg.2.trades ++ [t] })
          else kg) = (kg.1, { kg.2 with trades := kg.2.trades ++ [t] }) := if_pos hk'
      rw [← this]
      exact List.mem_map_of_mem _ hkg
    · exact List.mem_append_right _ (List.mem_singleton_self t)
  · rw [if_neg hc]
    exact ⟨(groupKey t, ⟨t.marketId, t.side, [t]⟩),
      List.mem_append_right _ (List.mem_singleton_self _),
      List.mem_singleton_self t⟩

theorem foldl_insertTrade_src (l : List TradeEvent)
    (acc : List (String × TradeGroup)) (Q : TradeEvent → Prop)
    (hacc : ∀ kg ∈ acc, ∀ u ∈ kg.2.trades, Q u) (hl : ∀ t ∈ l, Q t) :
    ∀ kg ∈ l.foldl insertTrade acc, ∀ u ∈ kg.2.trades, Q u := by
  induction l generalizing acc with
  | nil => exact hacc
  | cons t l ih =>
      apply ih (insertTrade acc t)
      · intro kg hkg u hu
        rcases insertTrade_src acc t kg hkg u hu with h1 | h1
        · rcases h1 with ⟨kg', hkg', hu'⟩
          exact hacc kg' hkg' u hu'
        · rw [h1]
          exact hl t (List.mem_cons_self t l)
      · intro u hu
        exact hl u (List.mem_cons_of_mem t hu)

theorem groupTrades_src (l : List TradeEvent) :
    ∀ kg ∈ groupTradesByPosition l, ∀ u ∈ kg.2.trades, u ∈ l :=
  foldl_insertTrade_src l [] (fun u => u ∈ l) (fun kg hkg => by cases hkg) (fun t ht => ht)

theorem foldl_insertTrade_mono (l : List TradeEvent)
    (acc : List (String × TradeGroup)) (kg : String × TradeGroup) (hkg : kg ∈ acc)
    (u : TradeEvent) (hu : u ∈ kg.2.trades) :
    ∃ kg' ∈ l.foldl insertTrade acc, u ∈ kg'.2.trades := by
  induction l generalizing acc kg with
  | nil => exact ⟨kg, hkg, hu⟩
  | cons t l ih =>
      rcases insertTrade_mono acc t kg hkg u hu with ⟨kg', hkg', hu'⟩
      exact ih (insertTrade acc t) kg' hkg' hu'

theorem groupTrades_covers (l : List TradeEvent) :
    ∀ t ∈ l, ∃ kg ∈ groupTradesByPosition l, t ∈ kg.2.trades := by
  have hgen : ∀ (l2 : List TradeEvent) (acc : List (String × TradeGroup)),
      ∀ t ∈ l2, ∃ kg ∈ l2.foldl insertTrade acc, t ∈ kg.2.trades := by
    intro l2
    induction l2 with
    | nil => intro acc t ht; cases ht
    | cons u l2 ih =>
        intro acc t ht
        rcases List.mem_cons.mp ht with h1 | h1
        · subst h1
          rcases insertTrade_self acc t with ⟨kg, hkg, htm⟩
          exact foldl_insertTrade_mono l2 (insertTrade acc t) kg hkg t htm
        · exact ih (insertTrade acc u) t h1
  exact hgen l []

/-! ## Characterizing the fills a sync writes -/

/-- All the `Fill` rows one sync call upserts, in processing order:
grouping-map insertion order, and decode order within a group. -/
def processedFills (w : String) (trades : List TradeEvent) : List Fill :=
  ((groupTradesByPosition trades).map (groupFills w)).flatten

theorem foldl_join_fills (groups : List (String × TradeGroup)) (w : String)
    (rows : List Fill) :
    ((groups.map (groupFills w)).flatten).foldl fillsUpsert rows =
      groups.foldl (fun r kg => (groupFills w kg).foldl fillsUpsert r) rows := by
  induction groups generalizing rows with
  | nil => rfl
  | cons kg groups ih =>
      rw [List.map_cons, List.flatten_cons, List.foldl_append, List.foldl_cons]
      exact ih _

theorem groupsFold_fills (w : String) (groups : List (String × TradeGroup)) :
    ∀ (s : Store) (n : ℕ),
      ((groups.foldl (processGroup w) (s, n)).1).fills =
        ((groups.map (groupFills w)).flatten).foldl fillsUpsert s.fills := by
  induction groups with
  | nil => intro s n; rfl
  | cons kg groups ih =>
      intro s n
      rw [List.foldl_cons]
      have hpair : processGroup w (s, n) kg =
          ((processGroup w (s, n) kg).1, (processGroup w (s, n) kg).2) := rfl
      rw [hpair, ih, processGroup_fills]
      rw [List.map_cons, List.flatten_cons, List.foldl_append]

theorem groupsFold_WF (w : String) (groups : List (String × TradeGroup)) :
    ∀ (s : Store) (n : ℕ), WFStore s w →
      WFStore ((groups.foldl (processGroup w) (s, n)).1) w := by
  induction groups with
  | nil => intro s n h; exact h
  | cons kg groups ih =>
      intro s n h
      rw [List.foldl_cons]
      have hpair : processGroup w (s, n) kg =
          ((processGroup w (s, n) kg).1, (processGroup w (s, n) kg).2) := rfl
      rw [hpair]
      exact ih _ _ (processGroup_WF w (s, n) kg h)

theorem syncWallet_of_empty (w : String) (up : List TradeEvent) (s : Store)
    (h : up.filter (keepTrade (maxWalletFillTs s w)) = []) :
    syncWallet w up s = (s, ⟨true, 0, 0⟩) := by
  rw [syncWallet]
  simp [h]

theorem syncWallet_fst_fills (w : String) (up : List TradeEvent) (s : Store)
    (h : up.filter (keepTrade (maxWalletFillTs s w)) ≠ []) :
    (syncWallet w up s).1.fills =
      (processedFills w (up.filter (keepTrade (maxWalletFillTs s w)))).foldl
        fillsUpsert s.fills := by
  rw [syncWallet]
  have hne : (up.filter (keepTrade (maxWalletFillTs s w))).isEmpty = false := by
    cases hc : up.filter (keepTrade (maxWalletFillTs s w)) with
    | nil => exact absurd hc h
    | cons a l => rfl
  simp only [hne, Bool.false_eq_true, if_false]
  rw [processedFills]
  exact groupsFold_fills w _ s 0

theorem syncWallet_WF (w : String) (up : List TradeEvent) (s : Store)
    (h : WFStore s w) : WFStore (syncWallet w up s).1 w := by
  by_cases hemp : up.filter (keepTrade (maxWalletFillTs s w)) = []
  · rw [syncWallet_of_empty w up s hemp]
    exact h
  · rw [syncWallet]
    have hne : (up.filter (keepTrade (maxWalletFillTs s w))).isEmpty = false := by
      cases hc : up.filter (keepTrade (maxWalletFillTs s w)) with
      | nil => exact absurd hc hemp
      | cons a l => rfl
    simp only [hne, Bool.false_eq_true, if_false]
    exact groupsFold_WF w _ s 0 h

theorem processedFills_src (w : String) (trades : List TradeEvent) :
    ∀ f ∈ processedFills w trades, ∃ t ∈ trades,
      f.signature = t.signature ∧ f.timestamp = t.timestamp := by
  intro f hf
  rw [processedFills] at hf
  rcases List.mem_flatten.mp hf with ⟨fl, hfl, hffl⟩
  rcases List.mem_map.mp hfl with ⟨kg, hkg, hkge⟩
  rw [← hkge] at hffl
  rcases List.mem_map.mp hffl with ⟨t, ht, hte⟩
  refine ⟨t, groupTrades_src trades kg hkg t ht, ?_, ?_⟩
  · rw [← hte, mkFill_sig]
  · rw [← hte, mkFill_ts]

theorem processedFills_covers (w : String) (trades : List TradeEvent) :
    ∀ t ∈ trades, ∃ f ∈ processedFills w trades,
      f.signature = t.signature ∧ f.timestamp = t.timestamp := by
  intro t ht
  rcases groupTrades_covers trades t ht with ⟨kg, hkg, htm⟩
  refine ⟨mkFill (dbPositionId kg.1 w) kg.2.side t, ?_, rfl, rfl⟩
  rw [processedFills]
  apply List.mem_flatten.mpr
  exact ⟨groupFills w kg, List.mem_map_of_mem _ hkg, List.mem_map_of_mem _ htm⟩

/-! ## Timestamps and the incremental watermark -/

/-- The maximal fill timestamp of a table (shape of `maxWalletFillTs`). -/
def fillsMaxTs (l : List Fill) : Option ℕ :=
  match l with
  | [] => none
  | f :: fs => some (fs.foldl (fun m g => max m g.timestamp) f.timestamp)

theorem foldMax_ge_init (fs : List Fill) (a : ℕ) :
    a ≤ fs.foldl (fun m g => max m g.timestamp) a := by
  induction fs generalizing a with
  | nil => exact le_refl a
  | cons g gs ih => exact le_trans (le_max_left a g.timestamp) (ih _)

theorem foldMax_ge_mem (fs : List Fill) (a : ℕ) (g : Fill) (hg : g ∈ fs) :
    g.timestamp ≤ fs.foldl (fun m g => max m g.timestamp) a := by
  induction fs generalizing a with
  | nil => cases hg
  | cons u us ih =>
      rcases List.mem_cons.mp hg with h1 | h1
      · subst h1
        exact le_trans (le_max_right a g.timestamp) (foldMax_ge_init us _)
      · exact ih _ h1

theorem foldMax_attained (fs : List Fill) (a : ℕ) :
    fs.foldl (fun m g => max m g.timestamp) a = a ∨
      ∃ g ∈ fs, fs.foldl (fun m g => max m g.timestamp) a = g.timestamp := by
  induction fs generalizing a with
  | nil => exact Or.inl rfl
  | cons u us ih =>
      rcases ih (max a u.timestamp) with h1 | h1
      · rcases max_choice a u.timestamp with h2 | h2
        · rw [List.foldl_cons, h1, h2]
          exact Or.inl rfl
        · rw [List.foldl_cons, h1, h2]
          exact Or.inr ⟨u, List.mem_cons_self u us, rfl⟩
      · rcases h1 with ⟨g, hg, he⟩
        rw [List.foldl_cons, he]
        exact Or.inr ⟨g, List.mem_cons_of_mem u hg, rfl⟩

theorem fillsMaxTs_ge (l : List Fill) (m : ℕ) (h : fillsMaxTs l = some m) :
    ∀ g ∈ l, g.timestamp ≤ m := by
  cases l with
  | nil => cases h
  | cons f fs =>
      rw [fillsMaxTs] at h
      cases h
      intro g hg
      rcases List.mem_cons.mp hg with h1 | h1
      · subst h1
        exact foldMax_ge_init fs _
      · exact foldMax_ge_mem fs _ g h1

theorem fillsMaxTs_attained (l : List Fill) (m : ℕ) (h : fillsMaxTs l = some m) :
    ∃ g ∈ l, g.timestamp = m := by
  cases l with
  | nil => cases h
  | cons f fs =>
      rw [fillsMaxTs] at h
      cases h
      rcases foldMax_attained fs f.timestamp with h1 | h1
      · exact ⟨f, List.mem_cons_self f fs, h1.symm⟩
      · rcases h1 with ⟨g, hg, he⟩
        exact ⟨g, List.mem_cons_of_mem f hg, he.symm⟩

theorem fillsMaxTs_of_ne_nil (l : List Fill) (h : l ≠ []) :
    ∃ m, fillsMaxTs l = some m := by
  cases l with
  | nil => exact absurd rfl h
  | cons f fs => exact ⟨_, rfl⟩

theorem walletFills_eq_fills (s : Store) (w : String) (h : WFStore s w) :
    walletFills s w = s.fills := by
  rw [walletFills]
  apply List.filter_eq_self.mpr
  intro f hf
  rcases h.2 f hf with ⟨p, hp, hid⟩
  have hsome : ∃ q, findPosition s f.positionId = some q := by
    rw [findPosition]
    have hex : (s.positions.find? (fun p => p.id = f.positionId)).isSome := by
      rw [List.find?_isSome]
      exact ⟨p, hp, decide_eq_true hid⟩
    exact Option.isSome_iff_exists.mp hex
  rcases hsome with ⟨q, hq⟩
  rw [hq]
  have hqm : q ∈ s.positions := by
    rw [findPosition] at hq
    exact List.mem_of_find?_eq_some hq
  exact decide_eq_true (h.1 q hqm)

theorem maxWalletFillTs_eq (s : Store) (w : String) (h : WFStore s w) :
    maxWalletFillTs s w = fillsMaxTs s.fills := by
  unfold maxWalletFillTs fillsMaxTs
  rw [walletFills_eq_fills s w h]

theorem keepTrade_none_true (t : TradeEvent) : keepTrade none t = true := rfl

theorem keepTrade_false_of (m : ℕ) (t : TradeEvent) (h0 : t.timestamp ≠ 0)
    (hle : t.timestamp ≤ m) : keepTrade (some m) t = false := by
  rw [keepTrade]
  simp [h0, not_lt.mpr hle]

theorem of_keepTrade_false (m : ℕ) (t : TradeEvent)
    (h : keepTrade (some m) t = false) : t.timestamp ≠ 0 ∧ t.timestamp ≤ m := by
  rw [keepTrade] at h
  simp at h
  exact h

/-! ## Claim C1: idempotence of a repeated sync -/

/-- C1: running `syncWallet` a second time with identical upstream data
yields the identical store (Position and Fill state) and the repeat run's
summary reports zero fills processed.  Hypotheses: the store belongs to the
wallet and is referentially intact, upstream block times are positive (a
zero block time is refetched forever by design of the `!s.blockTime`
guard), trades of one transaction share its block time, and stored fills
carry the block times of their transactions. -/
theorem sync_idempotent_second_run (w : String) (up : List TradeEvent) (s0 : Store)
    (hwf : WFStore s0 w)
    (hpos : ∀ t ∈ up, 0 < t.timestamp)
    (hup : ∀ t ∈ up, ∀ u ∈ up, t.signature = u.signature → t.timestamp = u.timestamp)
    (hst : ∀ f ∈ s0.fills, ∀ t ∈ up, f.signature = t.signature →
      f.timestamp = t.timestamp) :
    (syncWallet w up (syncWallet w up s0).1).1 = (syncWallet w up s0).1
    ∧ (syncWallet w up (syncWallet w up s0).1).2.fillsProcessed = 0 := by
  by_cases hemp : up.filter (keepTrade (maxWalletFillTs s0 w)) = []
  · have h1 := syncWallet_of_empty w up s0 hemp
    have hfst : (syncWallet w up s0).1 = s0 := by rw [h1]
    constructor
    · rw [hfst]
      exact hfst
    · rw [hfst, h1]
  · have hfills1 : (syncWallet w up s0).1.fills =
        (processedFills w (up.filter (keepTrade (maxWalletFillTs s0 w)))).foldl
          fillsUpsert s0.fills := syncWallet_fst_fills w up s0 hemp
    have hWF1 : WFStore (syncWallet w up s0).1 w := syncWallet_WF w up s0 hwf
    have hcons : ∀ f ∈ (syncWallet w up s0).1.fills, ∀ t ∈ up,
        f.signature = t.signature → f.timestamp = t.timestamp := by
      intro f hf t ht hsig
      rw [hfills1] at hf
      rcases foldUpsert_src _ _ f hf with h1 | h1
      · rcases h1 with ⟨g, hg, hcore⟩
        rw [coreEq_ts hcore]
        exact hst g hg t ht (by rw [← coreEq_sig hcore]; exact hsig)
      · rcases h1 with ⟨pf, hpf, hcore⟩
        rcases processedFills_src w _ pf hpf with ⟨u, hu, hus, hut⟩
        have huup : u ∈ up := List.mem_of_mem_filter hu
        rw [coreEq_ts hcore, hut]
        exact hup u huup t ht (by rw [← hus, ← coreEq_sig hcore]; exact hsig)
    have hcover : ∀ t ∈ up.filter (keepTrade (maxWalletFillTs s0 w)),
        ∃ f ∈ (syncWallet w up s0).1.fills, f.signature = t.signature := by
      intro t ht
      rcases processedFills_covers w _ t ht with ⟨pf, hpf, hps, _⟩
      rcases foldUpsert_sig_covered _ s0.fills pf hpf with ⟨f, hf, hfs⟩
      rw [← hfills1] at hf
      exact ⟨f, hf, by rw [hfs, hps]⟩
    have hgrow : ∀ g ∈ s0.fills, ∃ g' ∈ (syncWallet w up s0).1.fills, coreEq g g' := by
      intro g hg
      rcases foldUpsert_core_sub (processedFills w _) s0.fills g hg with ⟨g', hg', hc⟩
      rw [← hfills1] at hg'
      exact ⟨g', hg', hc⟩
    obtain ⟨t0, ht0⟩ := List.exists_mem_of_ne_nil _ hemp
    obtain ⟨f0, hf0, _⟩ := hcover t0 ht0
    have hne1 : (syncWallet w up s0).1.fills ≠ [] := List.ne_nil_of_mem hf0
    obtain ⟨M, hM⟩ := fillsMaxTs_of_ne_nil _ hne1
    have hmax1 : maxWalletFillTs (syncWallet w up s0).1 w = some M := by
      rw [maxWalletFillTs_eq _ w hWF1]
      exact hM
    have hfilter2 : up.filter (keepTrade (maxWalletFillTs (syncWallet w up s0).1 w)) = [] := by
      apply List.filter_eq_nil_iff.mpr
      intro t ht
      rw [hmax1]
      have hkf : keepTrade (some M) t = false := by
        apply keepTrade_false_of
        · exact (hpos t ht).ne'
        · by_cases hk1 : keepTrade (maxWalletFillTs s0 w) t = true
          · have ht1 : t ∈ up.filter (keepTrade (maxWalletFillTs s0 w)) :=
              List.mem_filter.mpr ⟨ht, hk1⟩
            obtain ⟨f, hf, hfs⟩ := hcover t ht1
            have hts : f.timestamp = t.timestamp := hcons f hf t ht hfs
            have hle := fillsMaxTs_ge _ M hM f hf
            rw [hts] at hle
            exact hle
          · have hk1f : keepTrade (maxWalletFillTs s0 w) t = false := by
              cases hkk : keepTrade (maxWalletFillTs s0 w) t
              · rfl
              · exact absurd hkk hk1
            cases hms : maxWalletFillTs s0 w with
            | none =>
                rw [hms, keepTrade_none_true] at hk1f
                cases hk1f
            | some m0 =>
                rw [hms] at hk1f
                have hb := of_keepTrade_false m0 t hk1f
                have hms' : fillsMaxTs s0.fills = some m0 := by
                  rw [← maxWalletFillTs_eq s0 w hwf]
                  exact hms
                obtain ⟨g, hg, hgts⟩ := fillsMaxTs_attained s0.fills m0 hms'
                obtain ⟨g', hg', hc⟩ := hgrow g hg
                have hgt : g'.timestamp = m0 := by rw [coreEq_ts hc]; exact hgts
                have hle := fillsMaxTs_ge _ M hM g' hg'
                rw [hgt] at hle
                exact le_trans hb.2 hle
      rw [hkf]
      exact Bool.false_ne_true
    have hsync2 := syncWallet_of_empty w up (syncWallet w up s0).1 hfilter2
    rw [hsync2]
    exact ⟨rfl, rfl⟩

/-- C1-witness trade. -/
def c1trade : TradeEvent :=
  { signature := "c1", side := Side.BUY, price := 100, size := 2,
    marketId := 0, symbol := "SOL-USDC", timestamp := 1000, fee := 1,
    tradeType := TradeType.PERP }

unseal Rat.add Rat.mul Rat.inv Rat.sub in
theorem sync_idempotent_second_run_witness :
    WFStore ⟨[], []⟩ "W"
    ∧ (∀ t ∈ [c1trade], 0 < t.timestamp)
    ∧ ((syncWallet "W" [c1trade] (syncWallet "W" [c1trade] ⟨[], []⟩).1).1 =
        (syncWallet "W" [c1trade] ⟨[], []⟩).1
      ∧ (syncWallet "W" [c1trade] (syncWallet "W" [c1trade] ⟨[], []⟩).1).2.fillsProcessed
        = 0) :=
  ⟨by decide, by decide,
   sync_idempotent_second_run "W" [c1trade] ⟨[], []⟩ (by decide) (by decide)
     (by decide) (by decide)⟩

/-! ## Claim C3: fill rows are unique per signature -/

theorem syncWallet_nodup (w : String) (up : List TradeEvent) (s : Store)
    (h : sigsNodup s.fills) : sigsNodup (syncWallet w up s).1.fills := by
  by_cases hemp : up.filter (keepTrade (maxWalletFillTs s w)) = []
  · rw [syncWallet_of_empty w up s hemp]
    exact h
  · rw [syncWallet_fst_fills w up s hemp]
    exact foldUpsert_nodup _ _ h

theorem syncFold_nodup (w : String) (batches : List (List TradeEvent)) :
    ∀ s0 : Store, sigsNodup s0.fills →
      sigsNodup ((batches.foldl (fun s b => (syncWallet w b s).1) s0).fills) := by
  induction batches with
  | nil => intro s0 h; exact h
  | cons b bs ih =>
      intro s0 h
      rw [List.foldl_cons]
      exact ih _ (syncWallet_nodup w b s0 h)

/-- C3: across any sequence of sync calls (including duplicate upstream
delivery), at most one Fill row ever exists per signature — signature
uniqueness is preserved by every sync — and an upsert that hits an
existing signature only patches that row's fee and never inserts (row
count unchanged). -/
theorem fill_signature_unique (w : String) (batches : List (List TradeEvent))
    (s0 : Store) (h : sigsNodup s0.fills) :
    sigsNodup ((batches.foldl (fun s b => (syncWallet w b s).1) s0).fills)
    ∧ ∀ (rows : List Fill) (f : Fill), f.signature ∈ rows.map Fill.signature →
        (fillsUpsert rows f).length = rows.length ∧
        fillsUpsert rows f =
          rows.map (fun g =>
            if g.signature = f.signature then { g with fee := f.fee } else g) := by
  refine ⟨syncFold_nodup w batches s0 h, ?_⟩
  intro rows f hmem
  rw [fillsUpsert, if_pos ((sig_mem_iff_any rows f.signature).mpr hmem)]
  constructor
  · rw [List.length_map]
  · rfl

/-- C3-witness trade. -/
def c3trade : TradeEvent :=
  { signature := "c3", side := Side.BUY, price := 100, size := 2,
    marketId := 0, symbol := "SOL-USDC", timestamp := 1000, fee := 1,
    tradeType := TradeType.PERP }

unseal Rat.add Rat.mul Rat.inv Rat.sub in
theorem fill_signature_unique_witness :
    sigsNodup (Store.fills ⟨[], []⟩)
    ∧ (sigsNodup ((([[c3trade], [c3trade]]).foldl
          (fun s b => (syncWallet "W" b s).1) ⟨[], []⟩).fills)
      ∧ ∀ (rows : List Fill) (f : Fill), f.signature ∈ rows.map Fill.signature →
          (fillsUpsert rows f).length = rows.length ∧
          fillsUpsert rows f =
            rows.map (fun g =>
              if g.signature = f.signature then { g with fee := f.fee } else g)) :=
  ⟨by decide, fill_signature_unique "W" [[c3trade], [c3trade]] ⟨[], []⟩ (by decide)⟩

/-! ## Claim C10: one transaction decoding to several trade events -/

/-- A fill row with its fee erased: the part of a row the upsert's update
branch can never change. -/
def coreOf (f : Fill) : Fill := { f with fee := 0 }

theorem filter_sig_nil (rows : List Fill) (σ : String)
    (h0 : ∀ g ∈ rows, g.signature ≠ σ) :
    rows.filter (fun f => f.signature = σ) = [] := by
  apply List.filter_eq_nil_iff.mpr
  intro g hg
  simp [h0 g hg]

theorem coreOf_patch (g : Fill) (fee : ℚ) : coreOf { g with fee := fee } = coreOf g := rfl

theorem foldUpsert_sig_stable (fs : List Fill) (rows : List Fill) (σ : String)
    (r : Fill)
    (h : (rows.filter (fun x => x.signature = σ)).map coreOf = [coreOf r]) :
    ((fs.foldl fillsUpsert rows).filter (fun x => x.signature = σ)).map coreOf =
      [coreOf r] := by
  induction fs generalizing rows with
  | nil => exact h
  | cons f fs ih =>
      apply ih
      rw [fillsUpsert]
      by_cases hc : rows.any (fun x => x.signature = f.signature) = true
      · rw [if_pos hc]
        rw [List.filter_map]
        rw [List.map_map]
        have hfc : rows.filter ((fun x => decide (x.signature = σ)) ∘ fun g =>
            if g.signature = f.signature then { g with fee := f.fee } else g) =
            rows.filter (fun x => x.signature = σ) := by
          apply List.filter_congr
          intro g _
          by_cases hs : g.signature = f.signature
          · simp [hs]
          · simp [hs]
        rw [hfc]
        have hmc : (rows.filter (fun x => x.signature = σ)).map
            (coreOf ∘ fun g =>
              if g.signature = f.signature then { g with fee := f.fee } else g) =
            (rows.filter (fun x => x.signature = σ)).map coreOf := by
          apply List.map_congr_left
          intro g _
          by_cases hs : g.signature = f.signature
          · simp only [Function.comp, if_pos hs]
            exact coreOf_patch g f.fee
          · simp only [Function.comp, if_neg hs]
        rw [hmc]
        exact h
      · rw [if_neg hc]
        have hne : rows.filter (fun x => x.signature = σ) ≠ [] := by
          intro hnil
          rw [hnil] at h
          cases h
        obtain ⟨x, hx⟩ := List.exists_mem_of_ne_nil _ hne
        have hx1 := List.mem_filter.mp hx
        have hxs : x.signature = σ := of_decide_eq_true hx1.2
        by_cases hs : f.signature = σ
        · exfalso
          apply hc
          apply List.any_eq_true.mpr
          exact ⟨x, hx1.1, decide_eq_true (by rw [hxs, hs])⟩
        · rw [List.filter_append]
          have hf0 : ([f].filter (fun x => x.signature = σ)) = [] := by
            simp [hs]
          rw [hf0, List.append_nil]
          exact h

theorem foldUpsert_fresh_sig (fs : List Fill) (rows : List Fill) (σ : String)
    (h0 : ∀ g ∈ rows, g.signature ≠ σ) :
    ((fs.foldl fillsUpsert rows).filter (fun x => x.signature = σ)).map coreOf =
      (match fs.find? (fun x => x.signature = σ) with
       | none => []
       | some fp => [coreOf fp]) := by
  induction fs generalizing rows with
  | nil =>
      rw [List.foldl_nil, filter_sig_nil rows σ h0]
      rfl
  | cons f fs ih =>
      rw [List.foldl_cons]
      by_cases hs : f.signature = σ
      · have hins : fillsUpsert rows f = rows ++ [f] := by
          rw [fillsUpsert, if_neg]
          intro hc
          rcases List.any_eq_true.mp hc with ⟨x, hx, hxs⟩
          exact h0 x hx (by rw [of_decide_eq_true hxs, hs])
        have hone : ((rows ++ [f]).filter (fun x => x.signature = σ)).map coreOf =
            [coreOf f] := by
          rw [List.filter_append, filter_sig_nil rows σ h0]
          simp [hs]
        have hfind : (f :: fs).find? (fun x => x.signature = σ) = some f :=
          List.find?_cons_of_pos fs (decide_eq_true hs)
        rw [hfind, hins]
        exact foldUpsert_sig_stable fs (rows ++ [f]) σ f hone
      · have h0' : ∀ g ∈ fillsUpsert rows f, g.signature ≠ σ := by
          intro g hg
          rcases fillsUpsert_src rows f g hg with h1 | h1
          · rcases h1 with ⟨g0, hg0, hcore⟩
            rw [coreEq_sig hcore]
            exact h0 g0 hg0
          · rw [coreEq_sig h1]
            exact hs
        have hfind : (f :: fs).find? (fun x => x.signature = σ) =
            fs.find? (fun x => x.signature = σ) :=
          List.find?_cons_of_neg fs (by simp [hs])
        rw [hfind]
        exact ih (fillsUpsert rows f) h0'

/-- C10 amended: for a signature not yet stored, after a sync at most one
Fill row with that signature exists, and — apart from its fee — it equals
the FIRST fill with that signature in the sync's processing order
(grouping-map iteration order), which need not be the first decoded
same-transaction event. -/
theorem duplicate_signature_first_amended (w σ : String) (up : List TradeEvent)
    (s : Store) (h0 : ∀ g ∈ s.fills, g.signature ≠ σ) :
    (((syncWallet w up s).1.fills.filter (fun f => f.signature = σ)).map coreOf) =
      (match (processedFills w (up.filter (keepTrade (maxWalletFillTs s w)))).find?
          (fun x => x.signature = σ) with
       | none => []
       | some fp => [coreOf fp]) := by
  by_cases hemp : up.filter (keepTrade (maxWalletFillTs s w)) = []
  · rw [syncWallet_of_empty w up s hemp, hemp]
    rw [filter_sig_nil s.fills σ h0]
    rfl
  · rw [syncWallet_fst_fills w up s hemp]
    exact foldUpsert_fresh_sig _ s.fills σ h0

/-- C10 trade: a SELL fill in its own transaction "X". -/
def c10x : TradeEvent :=
  { signature := "X", side := Side.SELL, price := 100, size := 1,
    marketId := 0, symbol := "SOL-USDC", timestamp := 1000, fee := 1,
    tradeType := TradeType.PERP }

/-- C10 trade: the FIRST decoded event of transaction "Y" (a BUY at 110). -/
def c10y1 : TradeEvent :=
  { signature := "Y", side := Side.BUY, price := 110, size := 2,
    marketId := 0, symbol := "SOL-USDC", timestamp := 1000, fee := 2,
    tradeType := TradeType.PERP }

/-- C10 trade: the SECOND decoded event of transaction "Y" (a SELL at 120). -/
def c10y2 : TradeEvent :=
  { signature := "Y", side := Side.SELL, price := 120, size := 3,
    marketId := 0, symbol := "SOL-USDC", timestamp := 1000, fee := 2,
    tradeType := TradeType.PERP }

unseal Rat.add Rat.mul Rat.inv Rat.sub in
/-- C10 counterexample: transaction "Y" decodes to two events, first a BUY
at 110 and then a SELL at 120.  Because grouping iterates the SELL group
(created by the earlier transaction "X") first, the persisted "Y" Fill row
carries price 120 — the SECOND decoded event — not the first one (110).
So "only the first of them ever exists as a Fill row" is false. -/
theorem duplicate_signature_first_cex :
    (((syncWallet "W" [c10x, c10y1, c10y2] ⟨[], []⟩).1.fills.filter
        (fun f => f.signature = "Y")).map (fun f => f.price) = [120])
    ∧ c10y1.signature = "Y" ∧ c10y2.signature = "Y"
    ∧ ([c10x, c10y1, c10y2].filter (fun t => t.signature = "Y")).map
        (fun t => t.price) = [110, 120]
    ∧ ((120 : ℚ) ≠ 110) := by
  exact ⟨by decide, by decide, by decide, by decide, by decide⟩

unseal Rat.add Rat.mul Rat.inv Rat.sub in
theorem duplicate_signature_first_amended_witness :
    (∀ g ∈ (⟨[], []⟩ : Store).fills, g.signature ≠ "Y")
    ∧ (((syncWallet "W" [c10x, c10y1, c10y2] ⟨[], []⟩).1.fills.filter
          (fun f => f.signature = "Y")).map coreOf) =
        (match (processedFills "W" ([c10x, c10y1, c10y2].filter
            (keepTrade (maxWalletFillTs ⟨[], []⟩ "W")))).find?
            (fun x => x.signature = "Y") with
         | none => []
         | some fp => [coreOf fp]) :=
  ⟨by decide,
   duplicate_signature_first_amended "W" "Y" [c10x, c10y1, c10y2] ⟨[], []⟩ (by decide)⟩

end Deriverse
